import Mathlib

/-!
Verification development for the Arrow→OTLP trace reconstruction utilities
(`load_arrow_traces.py` and `convert_arrow_to_otlp.py`).

The embedding models an Arrow table as a list of rows.  A row carries the
flat index columns (`trace_id`, `span_id`, `parent_span_id`, `service_name`,
`name`, `kind`, `duration_ns`) and the serialized nested payload column
`otlp_span`.  A nullable string cell is `Option String` (`none` models a
null/NaN cell as produced by `table.to_pandas()`).

The external `json.loads` call is modelled by representing the payload cell
as `Option Payload`: `some p` means the cell holds valid serialized JSON
whose decoded value is `p`, and `none` means the cell is malformed, in which
case `json.loads` raises (returns `.error`).  The decoded payload value
itself is opaque to every function modelled here, so it is represented by
the decoded content `p`.

Python `dict` / `collections.defaultdict` accumulators are modelled as
insertion-ordered association lists (`List (K × V)`), with `updList`
(read-modify-write of one key, appending a fresh key at the end, exactly
like `defaultdict` member access) and `setList` (plain `d[k] = v`
assignment, which overwrites the value of an existing key in place).

Numeric statistics are modelled in exact rational arithmetic; pandas'
`Series.mean()` on an empty column returns NaN, modelled as `none`.
-/

namespace OtelArrow

/-- Error raised by `json.loads` on a malformed payload string
(`json.JSONDecodeError`). -/
inductive DecodeErr where
  | invalidJson
deriving DecidableEq

/-- A decoded OTLP span payload.  The reconstruction code never inspects the
decoded structure, so the payload is kept opaque (identified by its decoded
content). -/
abbrev Payload := String

/-- One row of an Arrow trace table, after `table.to_pandas()`:
the flat index columns plus the serialized nested payload column.
`service_name` is `none` when the cell is null (NaN); `otlp_span` is `none`
when the cell does not hold valid serialized JSON. -/
structure Row where
  trace_id : String
  span_id : String
  parent_span_id : String
  service_name : Option String
  name : String
  kind : String
  duration_ns : Int
  otlp_span : Option Payload
deriving DecidableEq

/-- `json.loads` applied to the payload cell: returns the decoded payload or
raises `JSONDecodeError`. -/
def json_loads : Option Payload → Except DecodeErr Payload
  | some p => .ok p
  | none => .error .invalidJson

/-- Read-modify-write of one key of an insertion-ordered dict
(`d[k] = f(d.get(k))` semantics): the first entry with key `k` is updated in
place; if `k` is absent a new entry is appended at the end, exactly as for a
Python dict / `defaultdict`. -/
def updList {K V : Type} [DecidableEq K] (k : K) (f : Option V → V) :
    List (K × V) → List (K × V)
  | [] => [(k, f none)]
  | (k', v) :: m =>
    if k' = k then (k', f (some v)) :: m else (k', v) :: updList k f m

/-- Plain dict assignment `d[k] = v`: overwrites the value of an existing
key (keeping its position), else appends the new entry at the end. -/
def setList {K V : Type} [DecidableEq K] (k : K) (v : V) :
    List (K × V) → List (K × V)
  | [] => [(k, v)]
  | (k', v') :: m =>
    if k' = k then (k', v) :: m else (k', v') :: setList k v m

/-- Dict lookup `d.get(k)`. -/
def lookupA {K V : Type} [DecidableEq K] (k : K) : List (K × V) → Option V
  | [] => none
  | (k', v) :: m => if k' = k then some v else lookupA k m

/-- The distinct elements of a list, keeping the first occurrence of each,
in first-encounter order (the key order of a dict built by insertion). -/
def dedupFirst {K : Type} [DecidableEq K] : List K → List K
  | [] => []
  | k :: l => k :: (dedupFirst l).filter (fun x => x ≠ k)

/-- Key list of an insertion-ordered dict after inserting the keys `l` (in
order) into a dict whose current key list is `seen`. -/
def keysExtend {K : Type} [DecidableEq K] (seen : List K) : List K → List K
  | [] => seen
  | k :: l => keysExtend (if k ∈ seen then seen else seen ++ [k]) l

/-- The generic `defaultdict(list)` grouping loop:
`for a in l: d[key a] += val a`, starting from dict `acc`. -/
def groupFoldAcc {α β K : Type} [DecidableEq K] (key : α → K)
    (val : α → List β) (acc : List (K × List β)) (l : List α) :
    List (K × List β) :=
  l.foldl (fun m a => updList (key a) (fun o => o.getD [] ++ val a) m) acc

/-- The ordered concatenation of the `val`-lists of the elements of `l`
whose key is `k` — the value a `defaultdict(list)` grouping loop associates
to key `k`. -/
def jvals {α β K : Type} [DecidableEq K] (key : α → K) (val : α → List β)
    (l : List α) (k : K) : List β :=
  ((l.filter (fun a => key a = k)).map val).flatten

/-- `load_otlp_spans_from_arrow` (load_arrow_traces.py): decode every row's
`otlp_span` payload in row order; `json.loads` raises on the first malformed
payload, aborting the call. -/
def load_otlp_spans_from_arrow (rows : List Row) :
    Except DecodeErr (List Payload) :=
  rows.foldlM (fun acc r => do
    let p ← json_loads r.otlp_span
    pure (acc ++ [p])) []

/-- `load_otlp_traces_from_arrow` (load_arrow_traces.py): decode every row's
payload and group the decoded spans by `trace_id` into an insertion-ordered
dict; `json.loads` raises on the first malformed payload. -/
def load_otlp_traces_from_arrow (rows : List Row) :
    Except DecodeErr (List (String × List Payload)) :=
  rows.foldlM (fun m r => do
    let p ← json_loads r.otlp_span
    pure (updList r.trace_id (fun o => o.getD [] ++ [p]) m)) []

/-- Error raised by `load_all_arrow_batches` when the glob pattern matches
no file (`FileNotFoundError`). -/
inductive LoadError where
  | notFound
deriving DecidableEq

/-- `load_all_arrow_batches` (load_arrow_traces.py).  The glob expansion is
modelled by its result: `files` is the list of matched files' tables in
sorted-by-path order.  Raises `FileNotFoundError` when no file matched,
else concatenates the tables in order (`pa.concat_tables`). -/
def load_all_arrow_batches (files : List (List Row)) :
    Except LoadError (List Row) :=
  if files.isEmpty then .error .notFound else .ok files.flatten

/-- The per-file generator loop of `stream_otlp_spans`: decode the rows one
by one into `current_batch`, yielding the batch whenever it reaches
`batch_size` and flushing a nonempty remainder at the end.  The result is
the list of yielded batches together with the error, if any, that aborted
the generator (batches yielded before the error stand; the partial
`current_batch` at the error point is lost). -/
def streamRows (bs : Nat) : List Payload → List Row →
    List (List Payload) × Option DecodeErr
  | cur, [] => (if cur.isEmpty then [] else [cur], none)
  | cur, r :: rs =>
    match json_loads r.otlp_span with
    | .error e => ([], some e)
    | .ok p =>
      let cur2 := cur ++ [p]
      if bs ≤ cur2.length then
        let rest := streamRows bs [] rs
        (cur2 :: rest.1, rest.2)
      else
        streamRows bs cur2 rs

/-- `stream_otlp_spans` (load_arrow_traces.py): stream the matched files (in
sorted-by-path order) one after the other, restarting `current_batch` at
each file boundary.  Note: a pattern matching zero files yields nothing and
raises nothing. -/
def stream_otlp_spans (files : List (List Row)) (bs : Nat) :
    List (List Payload) × Option DecodeErr :=
  match files with
  | [] => ([], none)
  | t :: ts =>
    let fb := streamRows bs [] t
    match fb.2 with
    | some e => (fb.1, some e)
    | none =>
      let rest := stream_otlp_spans ts bs
      (fb.1 ++ rest.1, rest.2)

/-- The eager reference sequence of the streaming-equivalence property,
following the spec's words: the ordered concatenation of the fully
deserialized payload sequences (`load_otlp_spans_from_arrow`) of the matched
files taken in sorted-by-path order. -/
def eagerSpansSeq (files : List (List Row)) : Except DecodeErr (List Payload) :=
  files.foldlM (fun acc t => do
    let ps ← load_otlp_spans_from_arrow t
    pure (acc ++ ps)) []

/-- Reference chunking function for the streaming-equivalence property:
`chunksAux bs cur l` is the batch list produced by the streaming loop run
over the payloads `l` with pending batch `cur` — batches are emitted when
they reach `bs` elements and a nonempty remainder is flushed at the end. -/
def chunksAux {γ : Type} (bs : Nat) : List γ → List γ → List (List γ)
  | cur, [] => if cur.isEmpty then [] else [cur]
  | cur, a :: l =>
    let cur2 := cur ++ [a]
    if bs ≤ cur2.length then cur2 :: chunksAux bs [] l
    else chunksAux bs cur2 l

/-- One emitted `resourceSpans` entry.  The surrounding JSON boilerplate
(`resource.attributes` holding the single `service.name` key, and the
singleton `scopeSpans` wrapper) is a fixed shape around these two payloads:
the service label (`none` renders the null/NaN label) and the flat ordered
span list of the group's single scope. -/
structure ResourceSpan where
  service_name : Option String
  spans : List Payload
deriving DecidableEq

/-- The emitted OTLP JSON document: the `resourceSpans` list. -/
structure OtlpDoc where
  resourceSpans : List ResourceSpan
deriving DecidableEq

/-- `arrow_to_otlp_json` (load_arrow_traces.py): merge the trace dicts of
all files, then, for each trace in insertion order, group its spans by a
service name that is always the literal `'unknown'` and emit one
`resourceSpans` entry per (trace, service) pair.  Decode errors propagate
to the caller. -/
def arrow_to_otlp_json (files : List (List Row)) :
    Except DecodeErr OtlpDoc := do
  let all_traces ← files.foldlM (fun acc rows => do
    let traces ← load_otlp_traces_from_arrow rows
    pure (traces.foldl (fun a e => updList e.1 (fun o => o.getD [] ++ e.2) a) acc)) []
  let rsl := all_traces.foldl (fun rs e =>
    let sg := e.2.foldl
      (fun g p => updList "unknown" (fun o => o.getD [] ++ [p]) g)
      ([] : List (String × List Payload))
    rs ++ sg.map (fun s => ({ service_name := some s.1, spans := s.2 } : ResourceSpan))) []
  pure { resourceSpans := rsl }

/-- The table read by `convert_arrow_to_otlp` (convert_arrow_to_otlp.py).
`hasServiceCol` records whether the `service_name` column is present in the
schema: `row.get('service_name', 'unknown')` falls back to `'unknown'` only
when the column is absent; a null (NaN) cell of a present column is returned
as is. -/
structure ArrowFile where
  hasServiceCol : Bool
  rows : List Row

/-- `row.get('service_name', 'unknown')`: the stored cell when the column is
present (possibly null), the literal `'unknown'` when the column is absent. -/
def rowGetService (hasCol : Bool) (r : Row) : Option String :=
  if hasCol then r.service_name else some "unknown"

/-- The `trace_to_service` loop of `convert_arrow_to_otlp`: plain dict
assignment per row, so the last row of a trace determines its service. -/
def traceToService (f : ArrowFile) : List (String × Option String) :=
  f.rows.foldl (fun m r => setList r.trace_id (rowGetService f.hasServiceCol r) m) []

/-- `trace_to_service.get(trace_id, 'unknown')`. -/
def svcOfTrace (f : ArrowFile) (tid : String) : Option String :=
  (lookupA tid (traceToService f)).getD (some "unknown")

/-- The `service_groups` nested-`defaultdict` loop of
`convert_arrow_to_otlp`: for each trace (in trace-dict insertion order),
`service_groups[service][trace_id].extend(spans)`. -/
def convertGroups (f : ArrowFile) (traces : List (String × List Payload)) :
    List (Option String × List (String × List Payload)) :=
  traces.foldl (fun sg e =>
    updList (svcOfTrace f e.1)
      (fun o => updList e.1 (fun oo => oo.getD [] ++ e.2) (o.getD [])) sg) []

/-- `convert_arrow_to_otlp` (convert_arrow_to_otlp.py).  The input is the
file at the given path: `none` when the path does not exist (the function
prints an error and returns `False`).  The result is `some doc` when the
conversion succeeds (the function writes `doc` and returns `True`) and
`none` when it fails (returns `False`, no output file written): on a missing
file, on an empty trace dict, or on a decode error caught by the
surrounding `try`/`except`. -/
def convert_arrow_to_otlp (file : Option ArrowFile) : Option OtlpDoc :=
  match file with
  | none => none
  | some f =>
    match load_otlp_traces_from_arrow f.rows with
    | .error _ => none
    | .ok traces =>
      if traces.isEmpty then none
      else
        some { resourceSpans :=
          (convertGroups f traces).map (fun g =>
            { service_name := g.1, spans := (g.2.map Prod.snd).flatten }) }

/-- The trace dict built by `load_otlp_traces_from_arrow` when every
payload decodes: decoded spans grouped by `trace_id` in first-encounter
order (see `load_otlp_traces_ok`). -/
def tracesDict (rows : List Row) : List (String × List Payload) :=
  groupFoldAcc Row.trace_id (fun r => (r.otlp_span).toList) [] rows

/-- Trace statistics (`get_trace_statistics`, load_arrow_traces.py).
`avg_duration_ms` is `none` when the table is empty (pandas `mean()` of an
empty column is NaN).  `span_kinds` models the key→count mapping of
`value_counts().to_dict()` (its descending-frequency presentation order is
not modelled). -/
structure TraceStats where
  total_spans : Nat
  unique_traces : Nat
  unique_services : Nat
  span_kinds : List (String × Nat)
  avg_duration_ms : Option ℚ
  total_duration_seconds : ℚ
deriving DecidableEq

/-- `get_trace_statistics` (load_arrow_traces.py): flat-column statistics;
the nested `otlp_span` payload column is never deserialized.  `nunique`
counts distinct non-null values; the mean averages the per-row
`duration_ns / 1_000_000` values. -/
def get_trace_statistics (rows : List Row) : TraceStats :=
  { total_spans := rows.length
    unique_traces := (dedupFirst (rows.map Row.trace_id)).length
    unique_services := (dedupFirst (rows.filterMap Row.service_name)).length
    span_kinds := (dedupFirst (rows.map Row.kind)).map
      (fun k => (k, (rows.map Row.kind).count k))
    avg_duration_ms :=
      if rows.isEmpty then none
      else some (((rows.map (fun r => (r.duration_ns : ℚ) / 1000000)).sum) / rows.length)
    total_duration_seconds :=
      ((rows.map (fun r => (r.duration_ns : ℚ))).sum) / 1000000000 }

/-- One training example of `create_training_examples`
(load_arrow_traces.py), built from one trace's row group.
`service_names` is `group['service_name'].unique()` (first-occurrence
order, nulls kept); `root_span` is the `name` of the first row of the group
whose `parent_span_id` is the empty string, or `None` when there is none. -/
structure TrainingExample where
  trace_id : String
  service_names : List (Option String)
  span_count : Nat
  span_names : List String
  total_duration_ms : ℚ
  root_span : Option String
deriving DecidableEq

/-- The training example built from the row group `grp` of trace `tid`. -/
def mkTrainingExample (tid : String) (grp : List Row) : TrainingExample :=
  { trace_id := tid
    service_names := dedupFirst (grp.map Row.service_name)
    span_count := grp.length
    span_names := grp.map Row.name
    total_duration_ms := ((grp.map (fun r => (r.duration_ns : ℚ))).sum) / 1000000
    root_span := ((grp.filter (fun r => r.parent_span_id = "")).head?).map Row.name }

/-- Insert a string into a `≤`-sorted list (Python's lexicographic string
order coincides with Lean's code-point order). -/
def insertSorted (a : String) : List String → List String
  | [] => [a]
  | b :: l => if a ≤ b then a :: b :: l else b :: insertSorted a l

/-- Sort a list of strings (models the sorted group keys of
`df.groupby('trace_id')`, whose `sort=True` default sorts the keys). -/
def sortStrings (l : List String) : List String := l.foldr insertSorted []

/-- `create_training_examples` (load_arrow_traces.py): one training example
per trace, traces in sorted `trace_id` order (pandas `groupby` sorts keys),
each group holding its rows in source row order. -/
def create_training_examples (rows : List Row) : List TrainingExample :=
  (sortStrings (dedupFirst (rows.map Row.trace_id))).map
    (fun tid => mkTrainingExample tid (rows.filter (fun r => r.trace_id = tid)))

/-! ### Association-list lemmas -/

section AListLemmas

variable {K V : Type} [DecidableEq K]

theorem lookupA_updList_self (k : K) (f : Option V → V) (m : List (K × V)) :
    lookupA k (updList k f m) = some (f (lookupA k m)) := by
  induction m with
  | nil => simp [updList, lookupA]
  | cons e m ih =>
    obtain ⟨k', v⟩ := e
    by_cases h : k' = k
    · simp [updList, lookupA, h]
    · simp [updList, lookupA, h, ih]

theorem lookupA_updList_ne (k k' : K) (f : Option V → V) (m : List (K × V))
    (h : k' ≠ k) : lookupA k' (updList k f m) = lookupA k' m := by
  induction m with
  | nil =>
    have hk : ¬ k = k' := Ne.symm h
    simp [updList, lookupA, hk]
  | cons e m ih =>
    obtain ⟨k₀, v⟩ := e
    by_cases h0 : k₀ = k
    · have hk : ¬ k₀ = k' := by rw [h0]; exact Ne.symm h
      simp [updList, lookupA, h0, hk, Ne.symm h]
    · by_cases h1 : k₀ = k'
      · simp [updList, lookupA, h0, h1, h]
      · simp [updList, lookupA, h0, h1, ih]

theorem keys_updList (k : K) (f : Option V → V) (m : List (K × V)) :
    (updList k f m).map Prod.fst =
      if k ∈ m.map Prod.fst then m.map Prod.fst else m.map Prod.fst ++ [k] := by
  induction m with
  | nil => simp [updList]
  | cons e m ih =>
    obtain ⟨k₀, v⟩ := e
    by_cases h0 : k₀ = k
    · simp [updList, h0]
    · have h0' : ¬ k = k₀ := fun h => h0 h.symm
      by_cases hmem : k ∈ m.map Prod.fst <;>
        simp [updList, h0, h0', hmem, ih]

theorem updList_of_not_mem (k : K) (f : Option V → V) (m : List (K × V))
    (h : k ∉ m.map Prod.fst) : updList k f m = m ++ [(k, f none)] := by
  induction m with
  | nil => simp [updList]
  | cons e m ih =>
    obtain ⟨k₀, v⟩ := e
    have h1 : ¬ k = k₀ := by
      intro hk
      exact h (by simp [hk])
    have h2 : k ∉ m.map Prod.fst := by
      intro hk
      exact h (by simp [hk])
    have h0 : ¬ k₀ = k := fun hk => h1 hk.symm
    simp [updList, h0, ih h2]

theorem updList_congr (k : K) (f g : Option V → V) (m : List (K × V))
    (h : f (lookupA k m) = g (lookupA k m)) : updList k f m = updList k g m := by
  induction m with
  | nil =>
    simp only [lookupA] at h
    simp [updList, h]
  | cons e m ih =>
    obtain ⟨k₀, v⟩ := e
    by_cases h0 : k₀ = k
    · have hf : f (some v) = g (some v) := by simpa [lookupA, h0] using h
      simp [updList, h0, hf]
    · have h' : f (lookupA k m) = g (lookupA k m) := by simpa [lookupA, h0] using h
      simp [updList, h0, ih h']

theorem lookupA_mem {k : K} {v : V} {m : List (K × V)}
    (h : lookupA k m = some v) : (k, v) ∈ m := by
  induction m with
  | nil => simp [lookupA] at h
  | cons e m ih =>
    obtain ⟨k₀, v₀⟩ := e
    by_cases h0 : k₀ = k
    · have hv : v₀ = v := by simpa [lookupA, h0] using h
      subst h0
      subst hv
      exact List.mem_cons_self _ _
    · have h' : lookupA k m = some v := by simpa [lookupA, h0] using h
      exact List.mem_cons_of_mem _ (ih h')

theorem mem_updList {k : K} {f : Option V → V} {m : List (K × V)} {x : K × V}
    (h : x ∈ updList k f m) :
    x ∈ m ∨ ∃ o, x = (k, f o) ∧ o = lookupA k m := by
  induction m with
  | nil =>
    simp only [updList, List.mem_singleton] at h
    exact Or.inr ⟨none, h, by simp [lookupA]⟩
  | cons e m ih =>
    obtain ⟨k₀, v₀⟩ := e
    by_cases h0 : k₀ = k
    · rw [updList, if_pos h0] at h
      rcases List.mem_cons.mp h with h | h
      · subst h0
        exact Or.inr ⟨some v₀, by simp [h], by simp [lookupA]⟩
      · exact Or.inl (List.mem_cons_of_mem _ h)
    · rw [updList, if_neg h0] at h
      rcases List.mem_cons.mp h with h | h
      · exact Or.inl (by simp [h])
      · rcases ih h with h' | ⟨o, hx, ho⟩
        · exact Or.inl (List.mem_cons_of_mem _ h')
        · exact Or.inr ⟨o, hx, by simp [lookupA, h0, ho]⟩

theorem lookupA_setList_self (k : K) (v : V) (m : List (K × V)) :
    lookupA k (setList k v m) = some v := by
  induction m with
  | nil => simp [setList, lookupA]
  | cons e m ih =>
    obtain ⟨k₀, v₀⟩ := e
    by_cases h0 : k₀ = k
    · simp [setList, lookupA, h0]
    · simp [setList, lookupA, h0, ih]

theorem lookupA_setList_ne (k k' : K) (v : V) (m : List (K × V))
    (h : k' ≠ k) : lookupA k' (setList k v m) = lookupA k' m := by
  induction m with
  | nil =>
    have hk : ¬ k = k' := Ne.symm h
    simp [setList, lookupA, hk]
  | cons e m ih =>
    obtain ⟨k₀, v₀⟩ := e
    by_cases h0 : k₀ = k
    · have hk : ¬ k₀ = k' := by rw [h0]; exact Ne.symm h
      simp [setList, lookupA, h0, hk, Ne.symm h]
    · by_cases h1 : k₀ = k'
      · simp [setList, lookupA, h0, h1, h]
      · simp [setList, lookupA, h0, h1, ih]

theorem nodup_dedupFirst (l : List K) : (dedupFirst l).Nodup := by
  induction l with
  | nil => simp [dedupFirst]
  | cons k l ih =>
    simp only [dedupFirst, List.nodup_cons]
    refine ⟨fun hmem => ?_, ih.filter _⟩
    have := List.of_mem_filter hmem
    simp at this

theorem mem_dedupFirst {x : K} {l : List K} : x ∈ dedupFirst l ↔ x ∈ l := by
  induction l with
  | nil => simp [dedupFirst]
  | cons k l ih =>
    simp only [dedupFirst, List.mem_cons]
    constructor
    · rintro (h | h)
      · exact Or.inl h
      · exact Or.inr (ih.mp (List.mem_of_mem_filter h))
    · rintro (h | h)
      · exact Or.inl h
      · by_cases hx : x = k
        · exact Or.inl hx
        · exact Or.inr (List.mem_filter_of_mem (ih.mpr h) (by simp [hx]))

theorem length_dedupFirst (l : List K) :
    (dedupFirst l).length = l.dedup.length := by
  have hperm : List.Perm (dedupFirst l) l.dedup := by
    rw [List.perm_ext_iff_of_nodup (nodup_dedupFirst l) l.nodup_dedup]
    intro a
    rw [mem_dedupFirst, List.mem_dedup]
  exact hperm.length_eq

theorem dedupFirst_of_const {c : K} {l : List K} (hne : l ≠ [])
    (h : ∀ x ∈ l, x = c) : dedupFirst l = [c] := by
  cases l with
  | nil => exact absurd rfl hne
  | cons k t =>
    have hk := h k (List.mem_cons_self _ _)
    subst hk
    simp only [dedupFirst]
    have hf : (dedupFirst t).filter (fun x => x ≠ k) = [] := by
      rw [List.filter_eq_nil_iff]
      intro a ha
      have : a = k := h a (List.mem_cons_of_mem _ (mem_dedupFirst.mp ha))
      simp [this]
    rw [hf]

end AListLemmas

/-! ### Grouping-fold lemmas -/

section GroupLemmas

variable {α β K : Type} [DecidableEq K]

theorem jvals_cons_eq {key : α → K} {val : α → List β} {a : α} {l : List α}
    {k : K} (h : key a = k) :
    jvals key val (a :: l) k = val a ++ jvals key val l k := by
  simp [jvals, List.filter_cons, h]

theorem jvals_cons_ne {key : α → K} {val : α → List β} {a : α} {l : List α}
    {k : K} (h : ¬ key a = k) :
    jvals key val (a :: l) k = jvals key val l k := by
  simp [jvals, List.filter_cons, h]

theorem groupFoldAcc_cons (key : α → K) (val : α → List β)
    (acc : List (K × List β)) (a : α) (l : List α) :
    groupFoldAcc key val acc (a :: l) =
      groupFoldAcc key val (updList (key a) (fun o => o.getD [] ++ val a) acc) l := rfl

theorem lookupA_groupFoldAcc (key : α → K) (val : α → List β)
    (l : List α) (acc : List (K × List β)) (k : K) :
    lookupA k (groupFoldAcc key val acc l) =
      match lookupA k acc with
      | some v => some (v ++ jvals key val l k)
      | none => if k ∈ l.map key then some (jvals key val l k) else none := by
  induction l generalizing acc with
  | nil =>
    cases h : lookupA k acc <;> simp [groupFoldAcc, jvals, h]
  | cons a l ih =>
    rw [groupFoldAcc_cons, ih]
    by_cases hk : key a = k
    · subst hk
      rw [lookupA_updList_self]
      cases h : lookupA (key a) acc with
      | none => simp [h, jvals_cons_eq rfl]
      | some v => simp [h, jvals_cons_eq rfl, List.append_assoc]
    · have h1 : k ≠ key a := Ne.symm hk
      rw [lookupA_updList_ne _ _ _ _ h1]
      cases h : lookupA k acc with
      | none => simp [h, jvals_cons_ne hk, h1]
      | some v => simp [h, jvals_cons_ne hk]

theorem keys_groupFoldAcc (key : α → K) (val : α → List β)
    (l : List α) (acc : List (K × List β)) :
    (groupFoldAcc key val acc l).map Prod.fst =
      keysExtend (acc.map Prod.fst) (l.map key) := by
  induction l generalizing acc with
  | nil => rfl
  | cons a l ih =>
    rw [groupFoldAcc_cons, ih, keys_updList]
    simp [keysExtend]

theorem keysExtend_eq_append (l seen : List K) :
    keysExtend seen l = seen ++ (dedupFirst l).filter (fun x => x ∉ seen) := by
  induction l generalizing seen with
  | nil => simp [keysExtend, dedupFirst]
  | cons k l ih =>
    simp only [keysExtend, dedupFirst]
    by_cases h : k ∈ seen
    · rw [if_pos h, ih]
      congr 1
      rw [List.filter_cons]
      have hki : (decide (k ∉ seen)) = false := by simp [h]
      rw [hki]
      simp only [cond_false, List.filter_filter]
      refine (List.filter_congr ?_).symm
      intro x hx
      by_cases hxk : x = k
      · subst hxk
        simp [h]
      · simp [hxk]
    · rw [if_neg h, ih]
      have hcons : List.filter (fun x => x ∉ seen)
          (k :: (dedupFirst l).filter (fun x => x ≠ k)) =
          k :: ((dedupFirst l).filter (fun x => x ≠ k)).filter
            (fun x => x ∉ seen) := by
        simp [List.filter_cons, h]
      have hff : (dedupFirst l).filter (fun x => x ∉ seen ++ [k]) =
          ((dedupFirst l).filter (fun x => x ≠ k)).filter
            (fun x => x ∉ seen) := by
        rw [List.filter_filter]
        refine List.filter_congr ?_
        intro x hx
        by_cases hxk : x = k
        · subst hxk
          simp
        · simp [hxk, List.mem_append]
      rw [hcons, hff]
      simp

theorem keys_groupFold_eq_dedupFirst (key : α → K) (val : α → List β)
    (l : List α) :
    (groupFoldAcc key val [] l).map Prod.fst = dedupFirst (l.map key) := by
  rw [keys_groupFoldAcc, keysExtend_eq_append]
  simp

theorem lookupA_groupFold (key : α → K) (val : α → List β) (l : List α)
    (k : K) (h : k ∈ l.map key) :
    lookupA k (groupFoldAcc key val [] l) = some (jvals key val l k) := by
  rw [lookupA_groupFoldAcc]
  simp [lookupA, h]

theorem alist_eq_keys_map (m : List (K × List β))
    (h : (m.map Prod.fst).Nodup) :
    m = (m.map Prod.fst).map (fun k => (k, (lookupA k m).getD [])) := by
  induction m with
  | nil => rfl
  | cons e m ih =>
    obtain ⟨k, v⟩ := e
    simp only [List.map_cons, List.nodup_cons] at h
    obtain ⟨hk, hm⟩ := h
    have htail : (m.map Prod.fst).map
          (fun k0 => (k0, (lookupA k0 ((k, v) :: m)).getD [])) =
        (m.map Prod.fst).map (fun k0 => (k0, (lookupA k0 m).getD [])) := by
      refine List.map_congr_left ?_
      intro k0 hk0
      have hne : ¬ k = k0 := by
        intro hkk
        subst hkk
        exact hk hk0
      simp [lookupA, hne]
    rw [List.map_cons, List.map_cons]
    congr 1
    · simp [lookupA]
    · rw [htail, ← ih hm]

theorem groupFold_eq_keys_jvals (key : α → K) (val : α → List β)
    (l : List α) :
    groupFoldAcc key val [] l =
      (dedupFirst (l.map key)).map (fun k => (k, jvals key val l k)) := by
  have hkeys := keys_groupFold_eq_dedupFirst key val l
  have hnd : ((groupFoldAcc key val [] l).map Prod.fst).Nodup := by
    rw [hkeys]
    exact nodup_dedupFirst _
  rw [alist_eq_keys_map _ hnd, hkeys]
  refine List.map_congr_left ?_
  intro k hk
  have hmem : k ∈ l.map key := mem_dedupFirst.mp hk
  rw [lookupA_groupFold key val l k hmem]
  simp

theorem flatten_map_singleton (l : List α) (f : α → β) :
    (l.map (fun a => [f a])).flatten = l.map f := by
  induction l with
  | nil => rfl
  | cons a l ih => simp [ih]

theorem flatten_map_toList (l : List α) (f : α → Option β) :
    (l.map (fun a => (f a).toList)).flatten = l.filterMap f := by
  induction l with
  | nil => rfl
  | cons a l ih =>
    cases h : f a <;> simp [h, ih, List.filterMap_cons]

theorem flatten_jvals_perm (key : α → K) (val : α → List β) :
    ∀ (ks : List K) (l : List α), ks.Nodup → (∀ a ∈ l, key a ∈ ks) →
      List.Perm ((ks.map (fun k => jvals key val l k)).flatten)
        ((l.map val).flatten) := by
  intro ks
  induction ks with
  | nil =>
    intro l _ hcov
    have hl : l = [] := by
      cases l with
      | nil => rfl
      | cons a l => exact absurd (hcov a (List.mem_cons_self _ _)) (by simp)
    subst hl
    simp
  | cons k ks ih =>
    intro l hnd hcov
    simp only [List.nodup_cons] at hnd
    obtain ⟨hk, hnd⟩ := hnd
    have hsplit : List.Perm
        (l.filter (fun a => decide (key a = k)) ++
          l.filter (fun a => !decide (key a = k))) l :=
      List.filter_append_perm _ l
    have hcov2 : ∀ a ∈ l.filter (fun a => !decide (key a = k)), key a ∈ ks := by
      intro a ha
      rw [List.mem_filter] at ha
      have hmem := hcov a ha.1
      rcases List.mem_cons.mp hmem with h | h
      · exfalso
        have := ha.2
        simp [h] at this
      · exact h
    have hjv : ∀ k0 ∈ ks, jvals key val l k0 =
        jvals key val (l.filter (fun a => !decide (key a = k))) k0 := by
      intro k0 hk0
      have hne : ¬ k0 = k := by
        intro h
        subst h
        exact hk hk0
      unfold jvals
      congr 2
      rw [List.filter_filter]
      refine (List.filter_congr ?_).symm
      intro a ha
      by_cases hak : key a = k0
      · simp [hak, hne]
      · simp [hak]
    have e1 : ((k :: ks).map (fun k0 => jvals key val l k0)).flatten
        = jvals key val l k ++ (ks.map (fun k0 => jvals key val l k0)).flatten := by
      simp
    have e2 : ks.map (fun k0 => jvals key val l k0) =
        ks.map (fun k0 =>
          jvals key val (l.filter (fun a => !decide (key a = k))) k0) :=
      List.map_congr_left hjv
    have p3 : List.Perm
        ((ks.map (fun k0 =>
          jvals key val (l.filter (fun a => !decide (key a = k))) k0)).flatten)
        (((l.filter (fun a => !decide (key a = k))).map val).flatten) :=
      ih _ hnd hcov2
    have e4 : jvals key val l k ++
          ((l.filter (fun a => !decide (key a = k))).map val).flatten =
        ((l.filter (fun a => decide (key a = k)) ++
          l.filter (fun a => !decide (key a = k))).map val).flatten := by
      simp [jvals]
    have p5 : List.Perm
        (((l.filter (fun a => decide (key a = k)) ++
          l.filter (fun a => !decide (key a = k))).map val).flatten)
        ((l.map val).flatten) :=
      List.Perm.flatten (List.Perm.map val hsplit)
    rw [e1, e2]
    refine List.Perm.trans (List.Perm.append_left _ p3) ?_
    rw [e4]
    exact p5

end GroupLemmas

/-! ### Decoding-fold lemmas -/

section DecodeLemmas

theorem except_bind_ok {ε α β : Type} (x : α) (f : α → Except ε β) :
    ((Except.ok x : Except ε α) >>= f) = f x := rfl

theorem except_bind_error {ε α β : Type} (e : ε) (f : α → Except ε β) :
    ((Except.error e : Except ε α) >>= f) = .error e := rfl

theorem foldl_congr_mem {α β : Type} {l : List α} {f g : β → α → β} {b : β}
    (h : ∀ a ∈ l, ∀ b, f b a = g b a) : l.foldl f b = l.foldl g b := by
  induction l generalizing b with
  | nil => rfl
  | cons a l ih =>
    rw [List.foldl_cons, List.foldl_cons, h a (List.mem_cons_self _ _)]
    exact ih (fun a ha b => h a (List.mem_cons_of_mem _ ha) b)

theorem foldl_append_map {α β : Type} (f : α → β) (l : List α) :
    ∀ acc : List β, l.foldl (fun acc a => acc ++ [f a]) acc = acc ++ l.map f := by
  induction l with
  | nil => simp
  | cons a l ih =>
    intro acc
    rw [List.foldl_cons, ih]
    simp

theorem map_getD_eq_filterMap {α β : Type} (l : List α) (f : α → Option β)
    (d : β) (h : ∀ a ∈ l, (f a).isSome) :
    l.map (fun a => (f a).getD d) = l.filterMap f := by
  induction l with
  | nil => rfl
  | cons a l ih =>
    obtain ⟨b, hb⟩ := Option.isSome_iff_exists.mp (h a (List.mem_cons_self _ _))
    rw [List.map_cons, List.filterMap_cons, hb]
    simp only [Option.getD_some]
    rw [ih (fun a ha => h a (List.mem_cons_of_mem _ ha))]

theorem foldDecode_ok {β : Type} (g : β → Row → Payload → β) (l : List Row) :
    ∀ (acc : β), (∀ r ∈ l, (r.otlp_span).isSome) →
      (List.foldlM (fun acc r =>
          json_loads r.otlp_span >>= fun p => pure (g acc r p)) acc l
        : Except DecodeErr β) =
      .ok (List.foldl (fun acc r => g acc r ((r.otlp_span).getD "")) acc l) := by
  induction l with
  | nil =>
    intro acc _
    rfl
  | cons r l ih =>
    intro acc h
    obtain ⟨p, hp⟩ := Option.isSome_iff_exists.mp (h r (List.mem_cons_self _ _))
    rw [List.foldlM_cons, List.foldl_cons, hp]
    simp only [json_loads, except_bind_ok, Option.getD_some]
    rw [pure_bind]
    exact ih _ (fun q hq => h q (List.mem_cons_of_mem _ hq))

theorem foldDecode_err {β : Type} (g : β → Row → Payload → β)
    (pre post : List Row) (r : Row)
    (hpre : ∀ q ∈ pre, (q.otlp_span).isSome) (hr : r.otlp_span = none) :
    ∀ (acc : β),
      (List.foldlM (fun acc r =>
          json_loads r.otlp_span >>= fun p => pure (g acc r p)) acc
        (pre ++ r :: post) : Except DecodeErr β) = .error .invalidJson := by
  induction pre with
  | nil =>
    intro acc
    rw [List.nil_append, List.foldlM_cons, hr]
    simp only [json_loads]
    rw [except_bind_error, except_bind_error]
  | cons q pre ih =>
    intro acc
    obtain ⟨p, hp⟩ :=
      Option.isSome_iff_exists.mp (hpre q (List.mem_cons_self _ _))
    rw [List.cons_append, List.foldlM_cons, hp]
    simp only [json_loads, except_bind_ok]
    rw [pure_bind]
    exact ih (fun q hq => hpre q (List.mem_cons_of_mem _ hq)) _

theorem load_otlp_spans_ok (rows : List Row)
    (h : ∀ r ∈ rows, (r.otlp_span).isSome) :
    load_otlp_spans_from_arrow rows = .ok (rows.filterMap Row.otlp_span) := by
  refine Eq.trans (foldDecode_ok (fun acc r p => acc ++ [p]) rows [] h) ?_
  congr 1
  rw [foldl_append_map (fun r => (r.otlp_span).getD "") rows []]
  rw [List.nil_append]
  exact map_getD_eq_filterMap rows Row.otlp_span "" h

theorem load_otlp_spans_err (pre post : List Row) (r : Row)
    (hpre : ∀ q ∈ pre, (q.otlp_span).isSome) (hr : r.otlp_span = none) :
    load_otlp_spans_from_arrow (pre ++ r :: post) = .error .invalidJson :=
  foldDecode_err (fun acc _ p => acc ++ [p]) pre post r hpre hr []

theorem load_otlp_traces_ok (rows : List Row)
    (h : ∀ r ∈ rows, (r.otlp_span).isSome) :
    load_otlp_traces_from_arrow rows =
      .ok (groupFoldAcc Row.trace_id (fun r => (r.otlp_span).toList) [] rows) := by
  refine Eq.trans
    (foldDecode_ok
      (fun m r p => updList r.trace_id (fun o => o.getD [] ++ [p]) m) rows [] h) ?_
  congr 1
  unfold groupFoldAcc
  refine foldl_congr_mem ?_
  intro q hq m
  obtain ⟨p, hp⟩ := Option.isSome_iff_exists.mp (h q hq)
  simp [hp]

theorem load_otlp_traces_err (pre post : List Row) (r : Row)
    (hpre : ∀ q ∈ pre, (q.otlp_span).isSome) (hr : r.otlp_span = none) :
    load_otlp_traces_from_arrow (pre ++ r :: post) = .error .invalidJson :=
  foldDecode_err
    (fun m r p => updList r.trace_id (fun o => o.getD [] ++ [p]) m)
    pre post r hpre hr []

end DecodeLemmas

/-! ### Converter lemmas -/

section ConvertLemmas

theorem getLast?_cons_of_some {γ : Type} {x v : γ} {L : List γ}
    (h : L.getLast? = some v) : (x :: L).getLast? = some v := by
  cases L with
  | nil => simp at h
  | cons b t => rw [List.getLast?_cons_cons]; exact h

theorem lookupA_setFold (svcF : Row → Option String) (tid : String) :
    ∀ (rows : List Row) (m : List (String × Option String)),
      lookupA tid (rows.foldl (fun m r => setList r.trace_id (svcF r) m) m) =
        match ((rows.filter (fun r => r.trace_id = tid)).map svcF).getLast? with
        | some v => some v
        | none => lookupA tid m := by
  intro rows
  induction rows with
  | nil => intro m; rfl
  | cons r rows ih =>
    intro m
    rw [List.foldl_cons, ih]
    by_cases h : r.trace_id = tid
    · have hfc : List.filter (fun q => q.trace_id = tid) (r :: rows) =
          r :: rows.filter (fun q => q.trace_id = tid) := by
        simp [List.filter_cons, h]
      rw [hfc, List.map_cons]
      cases hL : ((rows.filter (fun q => q.trace_id = tid)).map svcF).getLast? with
      | some v =>
        rw [getLast?_cons_of_some hL]
      | none =>
        have hnil : (rows.filter (fun q => q.trace_id = tid)).map svcF = [] :=
          List.getLast?_eq_none_iff.mp hL
        rw [hnil, List.getLast?_singleton]
        rw [h]
        exact lookupA_setList_self tid (svcF r) m
    · have hfc : List.filter (fun q => q.trace_id = tid) (r :: rows) =
          rows.filter (fun q => q.trace_id = tid) := by
        simp [List.filter_cons, h]
      rw [hfc]
      cases hL : ((rows.filter (fun q => q.trace_id = tid)).map svcF).getLast? with
      | some v => rfl
      | none =>
        have hne2 : tid ≠ r.trace_id := fun hh => h hh.symm
        exact lookupA_setList_ne _ _ _ _ hne2

theorem svcOfTrace_eq_getLast (f : ArrowFile) (tid : String)
    (h : tid ∈ f.rows.map Row.trace_id) :
    ∃ v, ((f.rows.filter (fun r => r.trace_id = tid)).map
        (rowGetService f.hasServiceCol)).getLast? = some v ∧
      svcOfTrace f tid = v := by
  have hne : (f.rows.filter (fun r => r.trace_id = tid)).map
      (rowGetService f.hasServiceCol) ≠ [] := by
    obtain ⟨r, hr, hrt⟩ := List.mem_map.mp h
    have : r ∈ f.rows.filter (fun r => r.trace_id = tid) :=
      List.mem_filter_of_mem hr (by simp [hrt])
    intro hcon
    rw [List.map_eq_nil_iff] at hcon
    rw [hcon] at this
    simp at this
  have hgl : ((f.rows.filter (fun r => r.trace_id = tid)).map
      (rowGetService f.hasServiceCol)).getLast? ≠ none :=
    fun hcon => hne (List.getLast?_eq_none_iff.mp hcon)
  obtain ⟨v, hv⟩ := Option.ne_none_iff_exists.mp hgl
  refine ⟨v, hv.symm, ?_⟩
  unfold svcOfTrace traceToService
  rw [lookupA_setFold]
  rw [← hv]
  rfl

theorem convertGroups_aux (f : ArrowFile) :
    ∀ (traces : List (String × List Payload))
      (acc : List (Option String × List (String × List Payload))),
      (∀ e ∈ acc, ∀ x ∈ e.2, x.1 ∉ traces.map Prod.fst) →
      (traces.map Prod.fst).Nodup →
      traces.foldl (fun sg e =>
        updList (svcOfTrace f e.1)
          (fun o => updList e.1 (fun oo => oo.getD [] ++ e.2) (o.getD [])) sg) acc =
      groupFoldAcc (fun e => svcOfTrace f e.1) (fun e => [e]) acc traces := by
  intro traces
  induction traces with
  | nil => intro acc _ _; rfl
  | cons e traces ih =>
    intro acc hinv hnd
    simp only [List.map_cons, List.nodup_cons] at hnd
    obtain ⟨hknd, hnd⟩ := hnd
    rw [List.foldl_cons, groupFoldAcc_cons]
    have hstep : updList (svcOfTrace f e.1)
        (fun o => updList e.1 (fun oo => oo.getD [] ++ e.2) (o.getD [])) acc =
        updList (svcOfTrace f e.1) (fun o => o.getD [] ++ [e]) acc := by
      apply updList_congr
      have hfresh : e.1 ∉
          ((lookupA (svcOfTrace f e.1) acc).getD []).map Prod.fst := by
        intro hmem
        cases hoo : lookupA (svcOfTrace f e.1) acc with
        | none => rw [hoo] at hmem; simp at hmem
        | some d =>
          rw [hoo] at hmem
          simp only [Option.getD_some] at hmem
          obtain ⟨x, hx, hx1⟩ := List.mem_map.mp hmem
          have hdmem := lookupA_mem hoo
          have := hinv _ hdmem x hx
          rw [hx1] at this
          exact this (by simp)
      rw [updList_of_not_mem _ _ _ hfresh]
      simp
    rw [hstep]
    refine ih _ ?_ hnd
    intro e2 he2 x hx
    rcases mem_updList he2 with hold | ⟨o, he2eq, hoeq⟩
    · intro hmem
      exact hinv e2 hold x hx (by simp [hmem])
    · subst he2eq
      simp only at hx
      rcases List.mem_append.mp hx with hxo | hxe
      · cases hoo : o with
        | none =>
          rw [hoo] at hxo
          simp at hxo
        | some d =>
          rw [hoo] at hxo
          simp only [Option.getD_some] at hxo
          rw [hoo] at hoeq
          have hdmem := lookupA_mem hoeq.symm
          intro hmem
          exact hinv _ hdmem x hxo (by simp [hmem])
      · have hxe2 : x = e := by simpa using hxe
        subst hxe2
        exact hknd

theorem convertGroups_eq_flat (f : ArrowFile)
    (traces : List (String × List Payload))
    (hnd : (traces.map Prod.fst).Nodup) :
    convertGroups f traces =
      groupFoldAcc (fun e => svcOfTrace f e.1) (fun e => [e]) [] traces := by
  unfold convertGroups
  exact convertGroups_aux f traces [] (by intro e he; simp at he) hnd

theorem tracesDict_eq (rows : List Row) :
    tracesDict rows = (dedupFirst (rows.map Row.trace_id)).map
      (fun tid => (tid, jvals Row.trace_id (fun r => (r.otlp_span).toList) rows tid)) :=
  groupFold_eq_keys_jvals _ _ rows

theorem tracesDict_keys_nodup (rows : List Row) :
    ((tracesDict rows).map Prod.fst).Nodup := by
  unfold tracesDict
  rw [keys_groupFold_eq_dedupFirst]
  exact nodup_dedupFirst _

theorem tracesDict_ne_nil (rows : List Row) (h : rows ≠ []) :
    tracesDict rows ≠ [] := by
  rw [tracesDict_eq]
  cases rows with
  | nil => exact absurd rfl h
  | cons r rows => simp [dedupFirst]

theorem convert_eq_of_ok (f : ArrowFile)
    (h : ∀ r ∈ f.rows, (r.otlp_span).isSome) (hne : f.rows ≠ []) :
    convert_arrow_to_otlp (some f) = some (OtlpDoc.mk
      ((convertGroups f (tracesDict f.rows)).map (fun g =>
        ResourceSpan.mk g.1 (g.2.map Prod.snd).flatten))) := by
  have hload : load_otlp_traces_from_arrow f.rows = .ok (tracesDict f.rows) :=
    load_otlp_traces_ok f.rows h
  have hemp : (tracesDict f.rows).isEmpty = false := by
    cases hcase : (tracesDict f.rows).isEmpty with
    | false => rfl
    | true => exact absurd (List.isEmpty_iff.mp hcase) (tracesDict_ne_nil f.rows hne)
  simp only [convert_arrow_to_otlp]
  rw [hload]
  simp [hemp]

theorem convert_groups_shape (f : ArrowFile)
    (h : ∀ r ∈ f.rows, (r.otlp_span).isSome) (hne : f.rows ≠ []) :
    convert_arrow_to_otlp (some f) = some (OtlpDoc.mk
      ((dedupFirst ((tracesDict f.rows).map (fun e => svcOfTrace f e.1))).map
        (fun s => ResourceSpan.mk s
          (((tracesDict f.rows).filter
            (fun e => svcOfTrace f e.1 = s)).map Prod.snd).flatten))) := by
  rw [convert_eq_of_ok f h hne,
    convertGroups_eq_flat f _ (tracesDict_keys_nodup f.rows),
    groupFold_eq_keys_jvals]
  rw [List.map_map]
  refine congrArg _ (congrArg _ (List.map_congr_left ?_))
  intro s hs
  simp only [Function.comp]
  refine congrArg _ ?_
  rw [jvals, flatten_map_singleton]
  simp

end ConvertLemmas

/-! ### Streaming lemmas -/

section StreamLemmas

theorem streamRows_ok (bs : Nat) :
    ∀ (t : List Row) (cur : List Payload), (∀ r ∈ t, (r.otlp_span).isSome) →
      streamRows bs cur t =
        (chunksAux bs cur (t.filterMap Row.otlp_span), none) := by
  intro t
  induction t with
  | nil => intro cur _; rfl
  | cons r t ih =>
    intro cur h
    obtain ⟨p, hp⟩ := Option.isSome_iff_exists.mp (h r (List.mem_cons_self _ _))
    have ht : ∀ q ∈ t, (q.otlp_span).isSome :=
      fun q hq => h q (List.mem_cons_of_mem _ hq)
    have hfm : (r :: t).filterMap Row.otlp_span =
        p :: t.filterMap Row.otlp_span := by
      rw [List.filterMap_cons, hp]
    rw [hfm]
    simp only [streamRows, hp, json_loads, chunksAux]
    by_cases hbs : bs ≤ (cur ++ [p]).length
    · simp only [if_pos hbs, ih [] ht]
    · simp only [if_neg hbs, ih (cur ++ [p]) ht]

theorem chunksAux_flatten {γ : Type} (bs : Nat) :
    ∀ (l cur : List γ), (chunksAux bs cur l).flatten = cur ++ l := by
  intro l
  induction l with
  | nil =>
    intro cur
    by_cases h : cur.isEmpty
    · rw [List.isEmpty_iff] at h
      simp [chunksAux, h]
    · simp only [chunksAux, if_neg h]
      simp
  | cons a l ih =>
    intro cur
    simp only [chunksAux]
    by_cases hbs : bs ≤ (cur ++ [a]).length
    · rw [if_pos hbs]
      simp only [List.flatten_cons, ih []]
      simp
    · rw [if_neg hbs, ih (cur ++ [a])]
      simp

theorem chunksAux_mem_size {γ : Type} (bs : Nat) :
    ∀ (l cur : List γ), cur.length < bs →
      ∀ c ∈ chunksAux bs cur l, c ≠ [] ∧ c.length ≤ bs := by
  intro l
  induction l with
  | nil =>
    intro cur hcur c hc
    by_cases h : cur.isEmpty
    · rw [chunksAux, if_pos h] at hc
      simp at hc
    · rw [chunksAux, if_neg h] at hc
      have hc2 : c = cur := by simpa using hc
      subst hc2
      exact ⟨fun hcon => h (by simp [hcon]), Nat.le_of_lt hcur⟩
  | cons a l ih =>
    intro cur hcur c hc
    rw [chunksAux] at hc
    by_cases hbs : bs ≤ (cur ++ [a]).length
    · rw [if_pos hbs] at hc
      rcases List.mem_cons.mp hc with hceq | hc
      · subst hceq
        constructor
        · simp
        · have : (cur ++ [a]).length = cur.length + 1 := by simp
          omega
      · exact ih [] (by simp only [List.length_nil]; omega) c hc
    · rw [if_neg hbs] at hc
      have : (cur ++ [a]).length < bs := by
        simp only [Nat.not_le] at hbs
        exact hbs
      exact ih (cur ++ [a]) this c hc

theorem chunksAux_dropLast_size {γ : Type} (bs : Nat) :
    ∀ (l cur : List γ), cur.length < bs →
      ∀ c ∈ (chunksAux bs cur l).dropLast, c.length = bs := by
  intro l
  induction l with
  | nil =>
    intro cur hcur c hc
    by_cases h : cur.isEmpty
    · rw [chunksAux, if_pos h] at hc
      simp at hc
    · rw [chunksAux, if_neg h] at hc
      simp at hc
  | cons a l ih =>
    intro cur hcur c hc
    rw [chunksAux] at hc
    by_cases hbs : bs ≤ (cur ++ [a]).length
    · rw [if_pos hbs] at hc
      have hlen : (cur ++ [a]).length = bs := by
        have : (cur ++ [a]).length = cur.length + 1 := by simp
        omega
      cases hrest : chunksAux bs [] l with
      | nil =>
        rw [hrest] at hc
        simp at hc
      | cons b rs =>
        rw [hrest, List.dropLast_cons₂] at hc
        rcases List.mem_cons.mp hc with hceq | hc
        · subst hceq
          exact hlen
        · rw [← hrest] at hc
          exact ih [] (by simp only [List.length_nil]; omega) c hc
    · rw [if_neg hbs] at hc
      have hlt : (cur ++ [a]).length < bs := by
        simp only [Nat.not_le] at hbs
        exact hbs
      exact ih (cur ++ [a]) hlt c hc

theorem stream_otlp_spans_ok (files : List (List Row)) (bs : Nat)
    (h : ∀ t ∈ files, ∀ r ∈ t, (r.otlp_span).isSome) :
    stream_otlp_spans files bs =
      ((files.map (fun t => chunksAux bs [] (t.filterMap Row.otlp_span))).flatten,
        none) := by
  induction files with
  | nil => rfl
  | cons t ts ih =>
    rw [stream_otlp_spans]
    rw [streamRows_ok bs t [] (h t (List.mem_cons_self _ _))]
    simp only
    rw [ih (fun q hq => h q (List.mem_cons_of_mem _ hq))]
    simp

theorem exists_first_not {γ : Type} (p : γ → Prop) [DecidablePred p] :
    ∀ (l : List γ), (¬ ∀ a ∈ l, p a) →
      ∃ pre x post, l = pre ++ x :: post ∧ (∀ q ∈ pre, p q) ∧ ¬ p x := by
  intro l
  induction l with
  | nil => intro h; exact absurd (by intro a ha; simp at ha) h
  | cons a l ih =>
    intro h
    by_cases ha : p a
    · have : ¬ ∀ q ∈ l, p q := by
        intro hall
        refine h ?_
        intro q hq
        rcases List.mem_cons.mp hq with hq | hq
        · subst hq; exact ha
        · exact hall q hq
      obtain ⟨pre, x, post, heq, hpre, hx⟩ := ih this
      refine ⟨a :: pre, x, post, by rw [heq]; rfl, ?_, hx⟩
      intro q hq
      rcases List.mem_cons.mp hq with hq | hq
      · subst hq; exact ha
      · exact hpre q hq
    · exact ⟨[], a, l, rfl, by intro q hq; simp at hq, ha⟩

theorem isSome_of_load_spans_ok {rows : List Row} {ps : List Payload}
    (h : load_otlp_spans_from_arrow rows = .ok ps) :
    ∀ r ∈ rows, (r.otlp_span).isSome := by
  by_contra hcon
  obtain ⟨pre, x, post, heq, hpre, hx⟩ :=
    exists_first_not (fun r : Row => (r.otlp_span).isSome = true) rows hcon
  have hnone : x.otlp_span = none := Option.not_isSome_iff_eq_none.mp hx
  rw [heq, load_otlp_spans_err pre post x hpre hnone] at h
  exact Except.noConfusion h

theorem eagerSpansSeq_ok (files : List (List Row))
    (h : ∀ t ∈ files, ∀ r ∈ t, (r.otlp_span).isSome) :
    eagerSpansSeq files =
      .ok ((files.map (fun t => t.filterMap Row.otlp_span)).flatten) := by
  suffices haux : ∀ (fs : List (List Row)) (acc : List Payload),
      (∀ t ∈ fs, ∀ r ∈ t, (r.otlp_span).isSome) →
      (List.foldlM (fun acc t => do
          let ps ← load_otlp_spans_from_arrow t
          pure (acc ++ ps)) acc fs : Except DecodeErr (List Payload)) =
        .ok (acc ++ (fs.map (fun t => t.filterMap Row.otlp_span)).flatten) by
    have := haux files [] h
    rw [List.nil_append] at this
    exact this
  intro fs
  induction fs with
  | nil =>
    intro acc _
    simp only [List.foldlM_nil, List.map_nil, List.flatten_nil, List.append_nil]
    rfl
  | cons t ts ih =>
    intro acc hok
    rw [List.foldlM_cons, load_otlp_spans_ok t (hok t (List.mem_cons_self _ _))]
    rw [except_bind_ok, pure_bind]
    rw [ih _ (fun q hq => hok q (List.mem_cons_of_mem _ hq))]
    simp

theorem eagerSpansSeq_all_some {files : List (List Row)} {ps : List Payload}
    (h : eagerSpansSeq files = .ok ps) :
    ∀ t ∈ files, ∀ r ∈ t, (r.otlp_span).isSome := by
  suffices haux : ∀ (fs : List (List Row)) (acc : List Payload) (qs : List Payload),
      (List.foldlM (fun acc t => do
          let ps ← load_otlp_spans_from_arrow t
          pure (acc ++ ps)) acc fs : Except DecodeErr (List Payload)) = .ok qs →
      ∀ t ∈ fs, ∀ r ∈ t, (r.otlp_span).isSome by
    exact haux files [] ps h
  intro fs
  induction fs with
  | nil =>
    intro acc qs _ t ht
    simp at ht
  | cons u ts ih =>
    intro acc qs hfold t ht
    rw [List.foldlM_cons] at hfold
    cases hload : load_otlp_spans_from_arrow u with
    | error e =>
      rw [hload, except_bind_error, except_bind_error] at hfold
      exact Except.noConfusion hfold
    | ok ps0 =>
      rw [hload, except_bind_ok, pure_bind] at hfold
      rcases List.mem_cons.mp ht with hteq | ht
      · subst hteq
        exact isSome_of_load_spans_ok hload
      · exact ih _ _ hfold t ht

end StreamLemmas

/-! ### Miscellaneous helpers -/

section MiscLemmas

theorem arrow_to_otlp_json_err (pre post : List Row) (r : Row)
    (hpre : ∀ q ∈ pre, (q.otlp_span).isSome) (hr : r.otlp_span = none) :
    arrow_to_otlp_json [pre ++ r :: post] = .error .invalidJson := by
  unfold arrow_to_otlp_json
  rw [List.foldlM_cons, load_otlp_traces_err pre post r hpre hr]
  rw [except_bind_error, except_bind_error, except_bind_error]

theorem sum_map_div (l : List Row) (c : ℚ) :
    (l.map (fun r => (r.duration_ns : ℚ) / c)).sum =
      ((l.map (fun r => (r.duration_ns : ℚ))).sum) / c := by
  induction l with
  | nil => simp
  | cons r l ih =>
    simp only [List.map_cons, List.sum_cons, ih]
    rw [div_add_div_same]

theorem mem_insertSorted {a x : String} :
    ∀ {l : List String}, x ∈ insertSorted a l ↔ x = a ∨ x ∈ l := by
  intro l
  induction l with
  | nil => simp [insertSorted]
  | cons b l ih =>
    by_cases h : a ≤ b
    · simp [insertSorted, h, List.mem_cons]
    · simp only [insertSorted, if_neg h, List.mem_cons, ih]
      tauto

theorem mem_sortStrings {x : String} :
    ∀ {l : List String}, x ∈ sortStrings l ↔ x ∈ l := by
  intro l
  induction l with
  | nil => simp [sortStrings]
  | cons a l ih =>
    show x ∈ insertSorted a (sortStrings l) ↔ _
    rw [mem_insertSorted, ih]
    simp [List.mem_cons]

end MiscLemmas

/-! ### Partition helpers for the converter -/

section PartitionHelpers

theorem tracesDict_spans_perm (rows : List Row) :
    List.Perm (((tracesDict rows).map Prod.snd).flatten)
      (rows.filterMap Row.otlp_span) := by
  rw [tracesDict_eq, List.map_map]
  have hcomp : (Prod.snd ∘ fun tid =>
      (tid, jvals Row.trace_id (fun r => (r.otlp_span).toList) rows tid)) =
      fun tid => jvals Row.trace_id (fun r => (r.otlp_span).toList) rows tid := rfl
  rw [hcomp]
  have hperm := flatten_jvals_perm Row.trace_id
    (fun r => (r.otlp_span).toList) (dedupFirst (rows.map Row.trace_id)) rows
    (nodup_dedupFirst _)
    (fun r hr => mem_dedupFirst.mpr (List.mem_map_of_mem _ hr))
  rw [flatten_map_toList] at hperm
  exact hperm

theorem groups_spans_perm (f : ArrowFile) :
    List.Perm
      (((dedupFirst ((tracesDict f.rows).map (fun e => svcOfTrace f e.1))).map
        (fun s => (((tracesDict f.rows).filter
          (fun e => svcOfTrace f e.1 = s)).map Prod.snd).flatten)).flatten)
      (f.rows.filterMap Row.otlp_span) := by
  have h1 := flatten_jvals_perm (fun e => svcOfTrace f e.1)
    (Prod.snd : String × List Payload → List Payload)
    (dedupFirst ((tracesDict f.rows).map (fun e => svcOfTrace f e.1)))
    (tracesDict f.rows)
    (nodup_dedupFirst _)
    (fun e he => mem_dedupFirst.mpr (List.mem_map_of_mem _ he))
  have h2 := tracesDict_spans_perm f.rows
  exact List.Perm.trans h1 h2

end PartitionHelpers

section FlattenHelper

theorem flatten_flatten_map {γ δ : Type} (g : δ → List (List γ)) (f : δ → List γ)
    (hg : ∀ d, (g d).flatten = f d) :
    ∀ L : List δ, ((L.map g).flatten).flatten = (L.map f).flatten := by
  intro L
  induction L with
  | nil => rfl
  | cons d L ih => simp [hg d, ih]

end FlattenHelper

/-! ### Claim C1 -/

/-- C1 counterexample: two rows of the same trace with services `svcA` then
`svcB`; the converter emits the trace under the last-seen service `svcB`,
not the first-seen `svcA` as the claim states. -/
theorem C1_counterexample :
    convert_arrow_to_otlp (some (ArrowFile.mk true
      [Row.mk "t1" "s1" "" (some "svcA") "a" "k" 1 (some "p1"),
        Row.mk "t1" "s2" "" (some "svcB") "b" "k" 1 (some "p2")])) =
      some (OtlpDoc.mk [ResourceSpan.mk (some "svcB") ["p1", "p2"]]) ∧
    ∀ g ∈ (OtlpDoc.mk [ResourceSpan.mk (some "svcB") ["p1", "p2"]]).resourceSpans,
      g.service_name ≠ some "svcA" := by
  decide

/-- C1 (amended): in `convert_arrow_to_otlp` the `trace_to_service` mapping
is built by plain per-row dict assignment, so when a trace's rows disagree
on service the LAST value seen (in source row order) wins, and every span
of the trace is emitted in the Resource Group carrying that last-seen
service label. -/
theorem C1_service_last_wins (f : ArrowFile) (doc : OtlpDoc) (tid : String)
    (h1 : ∀ r ∈ f.rows, (r.otlp_span).isSome)
    (h2 : convert_arrow_to_otlp (some f) = some doc)
    (h3 : tid ∈ f.rows.map Row.trace_id) :
    ∃ g ∈ doc.resourceSpans,
      ((f.rows.filter (fun r => r.trace_id = tid)).map
        (rowGetService f.hasServiceCol)).getLast? = some g.service_name ∧
      List.Sublist
        ((f.rows.filter (fun r => r.trace_id = tid)).filterMap Row.otlp_span)
        g.spans := by
  have hne : f.rows ≠ [] := by
    intro hcon
    rw [hcon] at h3
    simp at h3
  rw [convert_groups_shape f h1 hne] at h2
  have hdoc := (Option.some.injEq _ _).mp h2
  subst hdoc
  obtain ⟨v, hv, hsvc⟩ := svcOfTrace_eq_getLast f tid h3
  have he0 : (tid, jvals Row.trace_id (fun r => (r.otlp_span).toList) f.rows tid)
      ∈ tracesDict f.rows := by
    rw [tracesDict_eq]
    exact List.mem_map_of_mem _ (mem_dedupFirst.mpr h3)
  have hsmem : svcOfTrace f tid ∈
      (tracesDict f.rows).map (fun e => svcOfTrace f e.1) := by
    refine List.mem_map.mpr ⟨_, he0, rfl⟩
  refine ⟨ResourceSpan.mk (svcOfTrace f tid)
    ((((tracesDict f.rows).filter
      (fun e => svcOfTrace f e.1 = svcOfTrace f tid)).map Prod.snd).flatten),
    ?_, ?_, ?_⟩
  · exact List.mem_map_of_mem _ (mem_dedupFirst.mpr hsmem)
  · rw [hv, hsvc]
  · have he1 : (tid, jvals Row.trace_id (fun r => (r.otlp_span).toList) f.rows tid)
        ∈ (tracesDict f.rows).filter
          (fun e => svcOfTrace f e.1 = svcOfTrace f tid) :=
      List.mem_filter_of_mem he0 (by simp)
    have he2 : jvals Row.trace_id (fun r => (r.otlp_span).toList) f.rows tid ∈
        ((tracesDict f.rows).filter
          (fun e => svcOfTrace f e.1 = svcOfTrace f tid)).map Prod.snd :=
      List.mem_map_of_mem _ he1
    have hjv : jvals Row.trace_id (fun r => (r.otlp_span).toList) f.rows tid =
        (f.rows.filter (fun r => r.trace_id = tid)).filterMap Row.otlp_span := by
      rw [jvals, flatten_map_toList]
    rw [← hjv]
    exact List.sublist_flatten_of_mem he2

/-- C1 witness: the amended theorem applied to the two-row disagreeing
table; the group holding trace `t1` is labeled `svcB`, the last service
seen. -/
theorem C1_service_last_wins_witness :
    (∀ r ∈ [Row.mk "t1" "s1" "" (some "svcA") "a" "k" 1 (some "p1"),
        Row.mk "t1" "s2" "" (some "svcB") "b" "k" 1 (some "p2")],
      (r.otlp_span).isSome) ∧
    ∃ g ∈ (OtlpDoc.mk [ResourceSpan.mk (some "svcB") ["p1", "p2"]]).resourceSpans,
      (((ArrowFile.mk true
        [Row.mk "t1" "s1" "" (some "svcA") "a" "k" 1 (some "p1"),
          Row.mk "t1" "s2" "" (some "svcB") "b" "k" 1 (some "p2")]).rows.filter
            (fun r => r.trace_id = "t1")).map
        (rowGetService true)).getLast? = some g.service_name ∧
      List.Sublist
        (((ArrowFile.mk true
          [Row.mk "t1" "s1" "" (some "svcA") "a" "k" 1 (some "p1"),
            Row.mk "t1" "s2" "" (some "svcB") "b" "k" 1 (some "p2")]).rows.filter
              (fun r => r.trace_id = "t1")).filterMap Row.otlp_span)
        g.spans :=
  ⟨by decide,
    C1_service_last_wins
      (ArrowFile.mk true
        [Row.mk "t1" "s1" "" (some "svcA") "a" "k" 1 (some "p1"),
          Row.mk "t1" "s2" "" (some "svcB") "b" "k" 1 (some "p2")])
      (OtlpDoc.mk [ResourceSpan.mk (some "svcB") ["p1", "p2"]]) "t1"
      (by decide) (by decide) (by decide)⟩

/-! ### Claim C2 -/

/-- C2 counterexample: `arrow_to_otlp_json` also emits the resourceSpans
tree, but labels one group per trace, all `"unknown"`: with two traces the
service label `"unknown"` appears twice in the output list, violating
label uniqueness. -/
theorem C2_counterexample :
    arrow_to_otlp_json
      [[Row.mk "t1" "s1" "" (some "svcA") "a" "k" 1 (some "p1"),
        Row.mk "t2" "s2" "" (some "svcA") "b" "k" 1 (some "p2")]] =
      .ok (OtlpDoc.mk [ResourceSpan.mk (some "unknown") ["p1"],
        ResourceSpan.mk (some "unknown") ["p2"]]) ∧
    ¬ ((OtlpDoc.mk [ResourceSpan.mk (some "unknown") ["p1"],
        ResourceSpan.mk (some "unknown") ["p2"]]).resourceSpans.map
          ResourceSpan.service_name).Nodup := by
  constructor
  · rfl
  · decide

/-- C2 (amended): the partition invariant holds for the single-file
converter `convert_arrow_to_otlp`: every Resource Group's service label
appears exactly once in the output list, and the concatenation of the
groups' span lists is a permutation of the decoded rows (disjoint cover).
It fails for the other emitting path `arrow_to_otlp_json`, which emits one
group per trace, all labeled `"unknown"` (see the counterexample). -/
theorem C2_partition_single_file (f : ArrowFile) (doc : OtlpDoc)
    (h1 : ∀ r ∈ f.rows, (r.otlp_span).isSome)
    (h2 : convert_arrow_to_otlp (some f) = some doc) :
    (doc.resourceSpans.map ResourceSpan.service_name).Nodup ∧
    List.Perm ((doc.resourceSpans.map ResourceSpan.spans).flatten)
      (f.rows.filterMap Row.otlp_span) := by
  have hne : f.rows ≠ [] := by
    intro hcon
    have hload : load_otlp_traces_from_arrow f.rows = .ok [] := by
      rw [hcon]
      rfl
    rw [convert_arrow_to_otlp] at h2
    rw [hload] at h2
    simp at h2
  rw [convert_groups_shape f h1 hne] at h2
  have hdoc := (Option.some.injEq _ _).mp h2
  subst hdoc
  constructor
  · rw [List.map_map]
    have : (ResourceSpan.service_name ∘ fun s => ResourceSpan.mk s
        ((((tracesDict f.rows).filter
          (fun e => svcOfTrace f e.1 = s)).map Prod.snd).flatten)) =
        fun s => s := rfl
    rw [this]
    simpa using nodup_dedupFirst
      ((tracesDict f.rows).map (fun e => svcOfTrace f e.1))
  · rw [List.map_map]
    exact groups_spans_perm f

/-- C2 witness: the amended theorem applied to a two-service table. -/
theorem C2_partition_single_file_witness :
    (∀ r ∈ [Row.mk "t1" "s1" "" (some "svcA") "a" "k" 1 (some "p1"),
        Row.mk "t2" "s2" "" (some "svcB") "b" "k" 1 (some "p2")],
      (r.otlp_span).isSome) ∧
    ((OtlpDoc.mk [ResourceSpan.mk (some "svcA") ["p1"],
      ResourceSpan.mk (some "svcB") ["p2"]]).resourceSpans.map
        ResourceSpan.service_name).Nodup ∧
    List.Perm
      (((OtlpDoc.mk [ResourceSpan.mk (some "svcA") ["p1"],
        ResourceSpan.mk (some "svcB") ["p2"]]).resourceSpans.map
          ResourceSpan.spans).flatten)
      (([Row.mk "t1" "s1" "" (some "svcA") "a" "k" 1 (some "p1"),
        Row.mk "t2" "s2" "" (some "svcB") "b" "k" 1 (some "p2")]).filterMap
          Row.otlp_span) :=
  ⟨by decide,
    C2_partition_single_file
      (ArrowFile.mk true
        [Row.mk "t1" "s1" "" (some "svcA") "a" "k" 1 (some "p1"),
          Row.mk "t2" "s2" "" (some "svcB") "b" "k" 1 (some "p2")])
      (OtlpDoc.mk [ResourceSpan.mk (some "svcA") ["p1"],
        ResourceSpan.mk (some "svcB") ["p2"]])
      (by decide) (by decide)⟩

/-! ### Claim C3 -/

/-- C3: completeness and ordering of the reconstruction
(`convert_arrow_to_otlp`): the multiset of span payloads in the emitted
tree equals the multiset of the table's decoded payloads (no loss, no
duplication), and within each Resource Group the spans are laid out trace
by trace — traces in order of first encounter in the source table, and
within one trace in source row order. -/
theorem C3_completeness_order (f : ArrowFile) (doc : OtlpDoc)
    (h1 : ∀ r ∈ f.rows, (r.otlp_span).isSome)
    (h2 : convert_arrow_to_otlp (some f) = some doc) :
    List.Perm ((doc.resourceSpans.map ResourceSpan.spans).flatten)
      (f.rows.filterMap Row.otlp_span) ∧
    ∀ g ∈ doc.resourceSpans, g.spans =
      (((dedupFirst (f.rows.map Row.trace_id)).filter
        (fun tid => svcOfTrace f tid = g.service_name)).map
        (fun tid => (f.rows.filter (fun r => r.trace_id = tid)).filterMap
          Row.otlp_span)).flatten := by
  have hne : f.rows ≠ [] := by
    intro hcon
    have hload : load_otlp_traces_from_arrow f.rows = .ok [] := by
      rw [hcon]
      rfl
    rw [convert_arrow_to_otlp] at h2
    rw [hload] at h2
    simp at h2
  rw [convert_groups_shape f h1 hne] at h2
  have hdoc := (Option.some.injEq _ _).mp h2
  subst hdoc
  constructor
  · rw [List.map_map]
    exact groups_spans_perm f
  · intro g hg
    obtain ⟨sv, hsv, hgeq⟩ := List.mem_map.mp hg
    subst hgeq
    simp only
    rw [tracesDict_eq, List.filter_map, List.map_map]
    congr 1
    refine List.map_congr_left ?_
    intro tid htid
    simp only [Function.comp]
    rw [jvals, flatten_map_toList]

/-- C3 witness: the theorem applied to a two-trace, two-service table. -/
theorem C3_completeness_order_witness :
    (∀ r ∈ [Row.mk "t1" "s1" "" (some "svcA") "a" "k" 1 (some "p1"),
        Row.mk "t2" "s2" "" (some "svcB") "b" "k" 1 (some "p2"),
        Row.mk "t1" "s3" "" (some "svcA") "c" "k" 1 (some "p3")],
      (r.otlp_span).isSome) ∧
    List.Perm
      (((OtlpDoc.mk [ResourceSpan.mk (some "svcA") ["p1", "p3"],
        ResourceSpan.mk (some "svcB") ["p2"]]).resourceSpans.map
          ResourceSpan.spans).flatten)
      (([Row.mk "t1" "s1" "" (some "svcA") "a" "k" 1 (some "p1"),
        Row.mk "t2" "s2" "" (some "svcB") "b" "k" 1 (some "p2"),
        Row.mk "t1" "s3" "" (some "svcA") "c" "k" 1 (some "p3")]).filterMap
          Row.otlp_span) ∧
    ∀ g ∈ (OtlpDoc.mk [ResourceSpan.mk (some "svcA") ["p1", "p3"],
        ResourceSpan.mk (some "svcB") ["p2"]]).resourceSpans, g.spans =
      (((dedupFirst (([Row.mk "t1" "s1" "" (some "svcA") "a" "k" 1 (some "p1"),
        Row.mk "t2" "s2" "" (some "svcB") "b" "k" 1 (some "p2"),
        Row.mk "t1" "s3" "" (some "svcA") "c" "k" 1 (some "p3")]).map
          Row.trace_id)).filter
        (fun tid => svcOfTrace (ArrowFile.mk true
          [Row.mk "t1" "s1" "" (some "svcA") "a" "k" 1 (some "p1"),
            Row.mk "t2" "s2" "" (some "svcB") "b" "k" 1 (some "p2"),
            Row.mk "t1" "s3" "" (some "svcA") "c" "k" 1 (some "p3")]) tid =
              g.service_name)).map
        (fun tid => (([Row.mk "t1" "s1" "" (some "svcA") "a" "k" 1 (some "p1"),
          Row.mk "t2" "s2" "" (some "svcB") "b" "k" 1 (some "p2"),
          Row.mk "t1" "s3" "" (some "svcA") "c" "k" 1 (some "p3")]).filter
            (fun r => r.trace_id = tid)).filterMap
          Row.otlp_span)).flatten :=
  ⟨by decide,
    C3_completeness_order
      (ArrowFile.mk true
        [Row.mk "t1" "s1" "" (some "svcA") "a" "k" 1 (some "p1"),
          Row.mk "t2" "s2" "" (some "svcB") "b" "k" 1 (some "p2"),
          Row.mk "t1" "s3" "" (some "svcA") "c" "k" 1 (some "p3")])
      (OtlpDoc.mk [ResourceSpan.mk (some "svcA") ["p1", "p3"],
        ResourceSpan.mk (some "svcB") ["p2"]])
      (by decide) (by decide)⟩

/-! ### Claim C4 -/

/-- C4: streaming equivalence.  When eager full deserialization of the
matched files (in sorted-by-path order) succeeds with payload sequence
`ps`, then for every `batchSize ≥ 1`: the per-file eager loads all succeed
with exactly the per-file payload sequences; the stream yields, file by
file, the chunking of that file's payload sequence (so no batch mixes two
files) and no error; concatenating all yielded batches reproduces `ps`;
and within each file every batch except possibly the last has exactly
`batchSize` elements, every batch being nonempty and at most `batchSize`
long. -/
theorem C4_stream_equiv (files : List (List Row)) (bs : Nat)
    (ps : List Payload) (hbs : 1 ≤ bs)
    (h : eagerSpansSeq files = .ok ps) :
    ps = (files.map (fun t => t.filterMap Row.otlp_span)).flatten ∧
    files.map load_otlp_spans_from_arrow =
      files.map (fun t => Except.ok (t.filterMap Row.otlp_span)) ∧
    stream_otlp_spans files bs =
      ((files.map (fun t =>
        chunksAux bs [] (t.filterMap Row.otlp_span))).flatten, none) ∧
    ((files.map (fun t =>
      chunksAux bs [] (t.filterMap Row.otlp_span))).flatten).flatten = ps ∧
    ∀ t ∈ files,
      (chunksAux bs [] (t.filterMap Row.otlp_span)).flatten =
        t.filterMap Row.otlp_span ∧
      (∀ c ∈ (chunksAux bs [] (t.filterMap Row.otlp_span)).dropLast,
        c.length = bs) ∧
      ∀ c ∈ chunksAux bs [] (t.filterMap Row.otlp_span),
        c ≠ [] ∧ c.length ≤ bs := by
  have hall := eagerSpansSeq_all_some h
  have hps : ps = (files.map (fun t => t.filterMap Row.otlp_span)).flatten := by
    have := eagerSpansSeq_ok files hall
    rw [h] at this
    exact (Except.ok.injEq _ _).mp this
  refine ⟨hps, ?_, ?_, ?_, ?_⟩
  · refine List.map_congr_left ?_
    intro t ht
    exact load_otlp_spans_ok t (hall t ht)
  · exact stream_otlp_spans_ok files bs hall
  · rw [flatten_flatten_map
      (fun t => chunksAux bs [] (t.filterMap Row.otlp_span))
      (fun t => t.filterMap Row.otlp_span)
      (fun t => by rw [chunksAux_flatten bs _ []]; rfl) files]
    exact hps.symm
  · intro t ht
    refine ⟨?_, ?_, ?_⟩
    · rw [chunksAux_flatten bs _ []]
      rfl
    · exact chunksAux_dropLast_size bs _ []
        (by simp only [List.length_nil]; omega)
    · exact chunksAux_mem_size bs _ []
        (by simp only [List.length_nil]; omega)

/-- C4 witness: two files with three and one payloads, batch size two:
the stream yields `[p1, p2]`, `[p3]` from the first file and `[p4]` from
the second; their concatenation is the eager sequence. -/
theorem C4_stream_equiv_witness :
    (1 ≤ 2 ∧ eagerSpansSeq
      [[Row.mk "t1" "s1" "" (some "svcA") "a" "k" 1 (some "p1"),
        Row.mk "t1" "s2" "" (some "svcA") "b" "k" 1 (some "p2"),
        Row.mk "t2" "s3" "" (some "svcA") "c" "k" 1 (some "p3")],
        [Row.mk "t3" "s4" "" (some "svcB") "d" "k" 1 (some "p4")]] =
      .ok ["p1", "p2", "p3", "p4"]) ∧
    stream_otlp_spans
      [[Row.mk "t1" "s1" "" (some "svcA") "a" "k" 1 (some "p1"),
        Row.mk "t1" "s2" "" (some "svcA") "b" "k" 1 (some "p2"),
        Row.mk "t2" "s3" "" (some "svcA") "c" "k" 1 (some "p3")],
        [Row.mk "t3" "s4" "" (some "svcB") "d" "k" 1 (some "p4")]] 2 =
      ([["p1", "p2"], ["p3"], ["p4"]], none) ∧
    ((stream_otlp_spans
      [[Row.mk "t1" "s1" "" (some "svcA") "a" "k" 1 (some "p1"),
        Row.mk "t1" "s2" "" (some "svcA") "b" "k" 1 (some "p2"),
        Row.mk "t2" "s3" "" (some "svcA") "c" "k" 1 (some "p3")],
        [Row.mk "t3" "s4" "" (some "svcB") "d" "k" 1 (some "p4")]] 2).1).flatten =
      ["p1", "p2", "p3", "p4"] := by
  refine ⟨⟨by decide, by rfl⟩, ?_, ?_⟩
  · have h4 := C4_stream_equiv
      [[Row.mk "t1" "s1" "" (some "svcA") "a" "k" 1 (some "p1"),
        Row.mk "t1" "s2" "" (some "svcA") "b" "k" 1 (some "p2"),
        Row.mk "t2" "s3" "" (some "svcA") "c" "k" 1 (some "p3")],
        [Row.mk "t3" "s4" "" (some "svcB") "d" "k" 1 (some "p4")]] 2
      ["p1", "p2", "p3", "p4"] (by decide) (by rfl)
    rw [h4.2.2.1]
    rfl
  · have h4 := C4_stream_equiv
      [[Row.mk "t1" "s1" "" (some "svcA") "a" "k" 1 (some "p1"),
        Row.mk "t1" "s2" "" (some "svcA") "b" "k" 1 (some "p2"),
        Row.mk "t2" "s3" "" (some "svcA") "c" "k" 1 (some "p3")],
        [Row.mk "t3" "s4" "" (some "svcB") "d" "k" 1 (some "p4")]] 2
      ["p1", "p2", "p3", "p4"] (by decide) (by rfl)
    rw [h4.2.2.1]
    rfl

/-! ### Claim C5 -/

/-- C5: statistics correctness.  On a nonempty table of N rows,
`get_trace_statistics` reports `total_spans = N`, `unique_traces` equal to
the number of distinct `trace_id` values, and a mean duration equal to the
arithmetic mean of the `duration_ns` column divided by 1,000,000; and the
result is unchanged when every row's nested `otlp_span` payload cell is
replaced arbitrarily (the payload column is never deserialized). -/
theorem C5_statistics (rows : List Row) (g : Row → Option Payload)
    (h : rows ≠ []) :
    (get_trace_statistics rows).total_spans = rows.length ∧
    (get_trace_statistics rows).unique_traces =
      (rows.map Row.trace_id).dedup.length ∧
    (get_trace_statistics rows).avg_duration_ms =
      some ((((rows.map (fun r => (r.duration_ns : ℚ))).sum) /
        rows.length) / 1000000) ∧
    get_trace_statistics (rows.map (fun r =>
      Row.mk r.trace_id r.span_id r.parent_span_id r.service_name r.name
        r.kind r.duration_ns (g r))) = get_trace_statistics rows := by
  refine ⟨rfl, length_dedupFirst _, ?_, ?_⟩
  · have hemp : rows.isEmpty = false := by
      cases rows with
      | nil => exact absurd rfl h
      | cons r rows => rfl
    simp only [get_trace_statistics, hemp, Bool.false_eq_true, if_false]
    rw [sum_map_div rows 1000000]
    rw [div_div, div_div, mul_comm]
  · have hie : (rows.map (fun r =>
        Row.mk r.trace_id r.span_id r.parent_span_id r.service_name r.name
          r.kind r.duration_ns (g r))).isEmpty = rows.isEmpty := by
      cases rows <;> rfl
    simp [get_trace_statistics, List.map_map, List.filterMap_map,
      Function.comp_def, hie]

/-- C5 witness: the theorem applied to a concrete two-row table with
durations 2ms and 4ms (mean 3ms) and a payload-erasing map. -/
theorem C5_statistics_witness :
    ([Row.mk "t1" "s1" "" (some "svcA") "a" "k" 2000000 (some "p1"),
      Row.mk "t2" "s2" "" (some "svcB") "b" "k" 4000000 (some "p2")] ≠
        ([] : List Row)) ∧
    ((get_trace_statistics
      [Row.mk "t1" "s1" "" (some "svcA") "a" "k" 2000000 (some "p1"),
        Row.mk "t2" "s2" "" (some "svcB") "b" "k" 4000000 (some "p2")]).total_spans =
      ([Row.mk "t1" "s1" "" (some "svcA") "a" "k" 2000000 (some "p1"),
        Row.mk "t2" "s2" "" (some "svcB") "b" "k" 4000000 (some "p2")]).length ∧
    (get_trace_statistics
      [Row.mk "t1" "s1" "" (some "svcA") "a" "k" 2000000 (some "p1"),
        Row.mk "t2" "s2" "" (some "svcB") "b" "k" 4000000 (some "p2")]).unique_traces =
      (([Row.mk "t1" "s1" "" (some "svcA") "a" "k" 2000000 (some "p1"),
        Row.mk "t2" "s2" "" (some "svcB") "b" "k" 4000000 (some "p2")]).map
          Row.trace_id).dedup.length ∧
    (get_trace_statistics
      [Row.mk "t1" "s1" "" (some "svcA") "a" "k" 2000000 (some "p1"),
        Row.mk "t2" "s2" "" (some "svcB") "b" "k" 4000000 (some "p2")]).avg_duration_ms =
      some (((([Row.mk "t1" "s1" "" (some "svcA") "a" "k" 2000000 (some "p1"),
        Row.mk "t2" "s2" "" (some "svcB") "b" "k" 4000000 (some "p2")]).map
          (fun r => (r.duration_ns : ℚ))).sum /
        ([Row.mk "t1" "s1" "" (some "svcA") "a" "k" 2000000 (some "p1"),
          Row.mk "t2" "s2" "" (some "svcB") "b" "k" 4000000 (some "p2")]).length) /
            1000000) ∧
    get_trace_statistics
      (([Row.mk "t1" "s1" "" (some "svcA") "a" "k" 2000000 (some "p1"),
        Row.mk "t2" "s2" "" (some "svcB") "b" "k" 4000000 (some "p2")]).map
        (fun r => Row.mk r.trace_id r.span_id r.parent_span_id r.service_name
          r.name r.kind r.duration_ns none)) =
      get_trace_statistics
        [Row.mk "t1" "s1" "" (some "svcA") "a" "k" 2000000 (some "p1"),
          Row.mk "t2" "s2" "" (some "svcB") "b" "k" 4000000 (some "p2")]) :=
  ⟨by decide,
    C5_statistics
      [Row.mk "t1" "s1" "" (some "svcA") "a" "k" 2000000 (some "p1"),
        Row.mk "t2" "s2" "" (some "svcB") "b" "k" 4000000 (some "p2")]
      (fun _ => none) (by decide)⟩

/-! ### Claim C6 -/

/-- C6 counterexample: `get_trace_statistics` applied to a zero-row table
does not fail at all — there is no `EmptyTableError` (or any empty-table
guard) in the code.  It returns a statistics record with zero counts and a
NaN mean (pandas `mean()` of an empty column is NaN, modelled as `none`),
rather than raising. -/
theorem C6_counterexample :
    get_trace_statistics [] = TraceStats.mk 0 0 0 [] none 0 := by
  simp [get_trace_statistics, dedupFirst]

/-- C6 (amended): on a zero-row table the statistics operation succeeds,
reporting zero totals, an empty kind table and an undefined (NaN) mean; no
named `EmptyTableError` failure exists in the code and no division fault
occurs. -/
theorem C6_empty_table_stats (rows : List Row) (h : rows = []) :
    get_trace_statistics rows = TraceStats.mk 0 0 0 [] none 0 := by
  subst h
  simp [get_trace_statistics, dedupFirst]

/-- C6 witness: the amended theorem applied to the empty table. -/
theorem C6_empty_table_stats_witness :
    (([] : List Row) = []) ∧
    get_trace_statistics ([] : List Row) = TraceStats.mk 0 0 0 [] none 0 :=
  ⟨rfl, C6_empty_table_stats [] rfl⟩

/-! ### Claim C7 -/

/-- C7 counterexample: `stream_otlp_spans` on a pattern matching zero
files succeeds, yielding no batches and raising nothing — it does not fail
with `NotFoundError` as the claim requires of every operation. -/
theorem C7_counterexample :
    stream_otlp_spans ([] : List (List Row)) 32 = ([], none) := by
  rfl

/-- C7 (amended): on a path or pattern matching zero files,
`load_all_arrow_batches` raises `FileNotFoundError` and
`convert_arrow_to_otlp` returns a failure status having written no output;
but `stream_otlp_spans` silently yields an empty stream with no error. -/
theorem C7_zero_match (bs : Nat) :
    load_all_arrow_batches ([] : List (List Row)) = .error .notFound ∧
    convert_arrow_to_otlp none = none ∧
    stream_otlp_spans ([] : List (List Row)) bs = ([], none) :=
  ⟨rfl, rfl, rfl⟩

/-! ### Claim C8 -/

/-- C8 counterexample: a row whose `service_name` cell is null is grouped
under the null label itself, not under `"unknown"`:
`row.get('service_name', 'unknown')` only falls back when the column is
absent from the schema, and a null value of a present column passes
through. -/
theorem C8_counterexample :
    convert_arrow_to_otlp (some (ArrowFile.mk true
      [Row.mk "t1" "s1" "" none "a" "k" 1 (some "p1")])) =
      some (OtlpDoc.mk [ResourceSpan.mk none ["p1"]]) ∧
    ∀ g ∈ (OtlpDoc.mk [ResourceSpan.mk none ["p1"]]).resourceSpans,
      g.service_name ≠ some "unknown" := by
  decide

/-- C8 (amended): when the `service_name` column is absent from the table,
every span lands in the single Resource Group labeled exactly `"unknown"`;
when the column is present, every group label is one of the stored cell
values verbatim — a null cell yields the null label and an empty-string
cell the empty-string label, with no coalescing to `"unknown"`. -/
theorem C8_service_fallback (f : ArrowFile) (doc : OtlpDoc)
    (h1 : ∀ r ∈ f.rows, (r.otlp_span).isSome)
    (h2 : convert_arrow_to_otlp (some f) = some doc) :
    (f.hasServiceCol = false →
      doc.resourceSpans.map ResourceSpan.service_name = [some "unknown"]) ∧
    (f.hasServiceCol = true →
      ∀ g ∈ doc.resourceSpans, g.service_name ∈ f.rows.map Row.service_name) := by
  have hne : f.rows ≠ [] := by
    intro hcon
    have hload : load_otlp_traces_from_arrow f.rows = .ok [] := by
      rw [hcon]
      rfl
    rw [convert_arrow_to_otlp] at h2
    rw [hload] at h2
    simp at h2
  rw [convert_groups_shape f h1 hne] at h2
  have hdoc := (Option.some.injEq _ _).mp h2
  subst hdoc
  have hsvc_mem : ∀ e ∈ tracesDict f.rows, e.1 ∈ f.rows.map Row.trace_id := by
    intro e he
    rw [tracesDict_eq] at he
    obtain ⟨tid, htid, heq⟩ := List.mem_map.mp he
    rw [← heq]
    exact mem_dedupFirst.mp htid
  constructor
  · intro hcol
    have hconst : ∀ x ∈ (tracesDict f.rows).map (fun e => svcOfTrace f e.1),
        x = some "unknown" := by
      intro x hx
      obtain ⟨e, he, hxeq⟩ := List.mem_map.mp hx
      obtain ⟨v, hv, hsv⟩ := svcOfTrace_eq_getLast f e.1 (hsvc_mem e he)
      have hvmem := List.mem_of_getLast?_eq_some hv
      obtain ⟨q, hq, hqeq⟩ := List.mem_map.mp hvmem
      rw [rowGetService, hcol] at hqeq
      simp only [Bool.false_eq_true, if_false] at hqeq
      rw [← hxeq, hsv, ← hqeq]
    have htne : (tracesDict f.rows).map (fun e => svcOfTrace f e.1) ≠ [] := by
      intro hcon
      rw [List.map_eq_nil_iff] at hcon
      exact tracesDict_ne_nil f.rows hne hcon
    rw [List.map_map]
    have hcomp : (ResourceSpan.service_name ∘ fun s => ResourceSpan.mk s
        ((((tracesDict f.rows).filter
          (fun e => svcOfTrace f e.1 = s)).map Prod.snd).flatten)) =
        fun s => s := rfl
    rw [hcomp]
    rw [dedupFirst_of_const htne hconst]
    rfl
  · intro hcol g hg
    obtain ⟨sv, hsv, hgeq⟩ := List.mem_map.mp hg
    have hsv2 : sv ∈ (tracesDict f.rows).map (fun e => svcOfTrace f e.1) :=
      mem_dedupFirst.mp hsv
    obtain ⟨e, he, hxeq⟩ := List.mem_map.mp hsv2
    obtain ⟨v, hv, hsvc⟩ := svcOfTrace_eq_getLast f e.1 (hsvc_mem e he)
    have hvmem := List.mem_of_getLast?_eq_some hv
    obtain ⟨q, hq, hqeq⟩ := List.mem_map.mp hvmem
    have hgserv : g.service_name = v := by
      rw [← hgeq]
      simp only
      rw [← hxeq, hsvc]
    rw [hgserv, ← hqeq]
    rw [rowGetService, hcol]
    simp only [if_true]
    exact List.mem_map_of_mem _ (List.mem_of_mem_filter hq)

/-- C8 witness: the amended theorem applied to a table whose
`service_name` column is absent: the single emitted group is labeled
`"unknown"`. -/
theorem C8_service_fallback_witness :
    (∀ r ∈ [Row.mk "t1" "s1" "" (some "svcA") "a" "k" 1 (some "p1")],
      (r.otlp_span).isSome) ∧
    ((false = false →
      (OtlpDoc.mk [ResourceSpan.mk (some "unknown") ["p1"]]).resourceSpans.map
        ResourceSpan.service_name = [some "unknown"]) ∧
    (false = true →
      ∀ g ∈ (OtlpDoc.mk
          [ResourceSpan.mk (some "unknown") ["p1"]]).resourceSpans,
        g.service_name ∈
          ([Row.mk "t1" "s1" "" (some "svcA") "a" "k" 1 (some "p1")]).map
            Row.service_name)) :=
  ⟨by decide,
    C8_service_fallback
      (ArrowFile.mk false
        [Row.mk "t1" "s1" "" (some "svcA") "a" "k" 1 (some "p1")])
      (OtlpDoc.mk [ResourceSpan.mk (some "unknown") ["p1"]])
      (by decide) (by decide)⟩

/-! ### Claim C9 -/

/-- C9: per-trace training examples.  For every trace of the table (with
at most one root row, as the data model assumes), the emitted example has
`span_count` equal to the trace's row count, `total_duration_ms` equal to
the sum of the trace's `duration_ns` divided by 1,000,000, and `root_span`
equal to the `name` of the row whose `parent_span_id` is the empty string
— or `null` when no such row exists. -/
theorem C9_training_examples (rows : List Row) (tid : String)
    (h1 : tid ∈ rows.map Row.trace_id)
    (h2 : (rows.filter (fun r => r.trace_id = tid)).countP
      (fun r => r.parent_span_id = "") ≤ 1) :
    ∃ e ∈ create_training_examples rows,
      e.trace_id = tid ∧
      e.span_count = (rows.filter (fun r => r.trace_id = tid)).length ∧
      e.total_duration_ms =
        (((rows.filter (fun r => r.trace_id = tid)).map
          (fun r => (r.duration_ns : ℚ))).sum) / 1000000 ∧
      ((∀ r ∈ rows.filter (fun r => r.trace_id = tid),
        r.parent_span_id ≠ "") → e.root_span = none) ∧
      (∀ r ∈ rows.filter (fun r => r.trace_id = tid),
        r.parent_span_id = "" → e.root_span = some r.name) := by
  refine ⟨mkTrainingExample tid (rows.filter (fun r => r.trace_id = tid)),
    ?_, rfl, rfl, rfl, ?_, ?_⟩
  · unfold create_training_examples
    refine List.mem_map_of_mem _ ?_
    rw [mem_sortStrings, mem_dedupFirst]
    exact h1
  · intro hall
    unfold mkTrainingExample
    simp only
    have hnil : (rows.filter (fun r => r.trace_id = tid)).filter
        (fun r => r.parent_span_id = "") = [] := by
      rw [List.filter_eq_nil_iff]
      intro a ha
      simp only [decide_eq_true_eq]
      exact hall a ha
    rw [hnil]
    rfl
  · intro r hr hroot
    unfold mkTrainingExample
    simp only
    rw [List.countP_eq_length_filter] at h2
    have hrf : r ∈ (rows.filter (fun r => r.trace_id = tid)).filter
        (fun r => r.parent_span_id = "") :=
      List.mem_filter_of_mem hr (by simp [hroot])
    cases hf : (rows.filter (fun r => r.trace_id = tid)).filter
        (fun r => r.parent_span_id = "") with
    | nil =>
      rw [hf] at hrf
      simp at hrf
    | cons x xs =>
      rw [hf] at h2 hrf
      have hxs : xs = [] := by
        simp only [List.length_cons] at h2
        exact List.eq_nil_of_length_eq_zero (by omega)
      subst hxs
      have hrx : r = x := by simpa using hrf
      subst hrx
      rfl

/-- C9 witness: the theorem applied to a two-row trace whose first row is
the root (empty `parent_span_id`). -/
theorem C9_training_examples_witness :
    ("t1" ∈ ([Row.mk "t1" "s1" "" (some "svcA") "root" "k" 1 (some "p1"),
      Row.mk "t1" "s2" "s1" (some "svcA") "child" "k" 2 (some "p2")]).map
        Row.trace_id ∧
    (([Row.mk "t1" "s1" "" (some "svcA") "root" "k" 1 (some "p1"),
      Row.mk "t1" "s2" "s1" (some "svcA") "child" "k" 2 (some "p2")]).filter
        (fun r => r.trace_id = "t1")).countP
      (fun r => r.parent_span_id = "") ≤ 1) ∧
    ∃ e ∈ create_training_examples
      [Row.mk "t1" "s1" "" (some "svcA") "root" "k" 1 (some "p1"),
        Row.mk "t1" "s2" "s1" (some "svcA") "child" "k" 2 (some "p2")],
      e.trace_id = "t1" ∧
      e.span_count = (([Row.mk "t1" "s1" "" (some "svcA") "root" "k" 1 (some "p1"),
        Row.mk "t1" "s2" "s1" (some "svcA") "child" "k" 2 (some "p2")]).filter
          (fun r => r.trace_id = "t1")).length ∧
      e.total_duration_ms =
        (((([Row.mk "t1" "s1" "" (some "svcA") "root" "k" 1 (some "p1"),
          Row.mk "t1" "s2" "s1" (some "svcA") "child" "k" 2 (some "p2")]).filter
            (fun r => r.trace_id = "t1")).map
          (fun r => (r.duration_ns : ℚ))).sum) / 1000000 ∧
      ((∀ r ∈ ([Row.mk "t1" "s1" "" (some "svcA") "root" "k" 1 (some "p1"),
        Row.mk "t1" "s2" "s1" (some "svcA") "child" "k" 2 (some "p2")]).filter
          (fun r => r.trace_id = "t1"),
        r.parent_span_id ≠ "") → e.root_span = none) ∧
      (∀ r ∈ ([Row.mk "t1" "s1" "" (some "svcA") "root" "k" 1 (some "p1"),
        Row.mk "t1" "s2" "s1" (some "svcA") "child" "k" 2 (some "p2")]).filter
          (fun r => r.trace_id = "t1"),
        r.parent_span_id = "" → e.root_span = some r.name) :=
  ⟨⟨by decide, by decide⟩,
    C9_training_examples
      [Row.mk "t1" "s1" "" (some "svcA") "root" "k" 1 (some "p1"),
        Row.mk "t1" "s2" "s1" (some "svcA") "child" "k" 2 (some "p2")]
      "t1" (by decide) (by decide)⟩

/-! ### Claim C10 -/

/-- C10: fail-fast on malformed payloads.  For any table whose first
malformed `otlp_span` payload sits at row `r` (all rows before it decode),
every eager path aborts the whole call with the decode error — no partial
grouped result is produced for the decoded rows before `r`, regardless of
what follows `r` — and the single-file converter catches the error,
returns failure and writes no output file. -/
theorem C10_fail_fast (hasCol : Bool) (pre post : List Row) (r : Row)
    (h1 : ∀ q ∈ pre, (q.otlp_span).isSome)
    (h2 : r.otlp_span = none) :
    load_otlp_spans_from_arrow (pre ++ r :: post) = .error .invalidJson ∧
    load_otlp_traces_from_arrow (pre ++ r :: post) = .error .invalidJson ∧
    arrow_to_otlp_json [pre ++ r :: post] = .error .invalidJson ∧
    convert_arrow_to_otlp (some (ArrowFile.mk hasCol (pre ++ r :: post))) =
      none := by
  refine ⟨load_otlp_spans_err pre post r h1 h2,
    load_otlp_traces_err pre post r h1 h2,
    arrow_to_otlp_json_err pre post r h1 h2, ?_⟩
  simp only [convert_arrow_to_otlp]
  rw [load_otlp_traces_err pre post r h1 h2]

/-- C10 witness: a well-formed row followed by a malformed payload and a
further well-formed row: every eager path fails and the converter reports
failure. -/
theorem C10_fail_fast_witness :
    (∀ q ∈ [Row.mk "t1" "s1" "" (some "svcA") "a" "k" 1 (some "p1")],
      (q.otlp_span).isSome) ∧
    ((Row.mk "t2" "s2" "" (some "svcA") "b" "k" 1 none).otlp_span = none) ∧
    load_otlp_spans_from_arrow
      ([Row.mk "t1" "s1" "" (some "svcA") "a" "k" 1 (some "p1")] ++
        Row.mk "t2" "s2" "" (some "svcA") "b" "k" 1 none ::
          [Row.mk "t3" "s3" "" (some "svcA") "c" "k" 1 (some "p3")]) =
      .error .invalidJson ∧
    load_otlp_traces_from_arrow
      ([Row.mk "t1" "s1" "" (some "svcA") "a" "k" 1 (some "p1")] ++
        Row.mk "t2" "s2" "" (some "svcA") "b" "k" 1 none ::
          [Row.mk "t3" "s3" "" (some "svcA") "c" "k" 1 (some "p3")]) =
      .error .invalidJson ∧
    arrow_to_otlp_json
      [[Row.mk "t1" "s1" "" (some "svcA") "a" "k" 1 (some "p1")] ++
        Row.mk "t2" "s2" "" (some "svcA") "b" "k" 1 none ::
          [Row.mk "t3" "s3" "" (some "svcA") "c" "k" 1 (some "p3")]] =
      .error .invalidJson ∧
    convert_arrow_to_otlp (some (ArrowFile.mk true
      ([Row.mk "t1" "s1" "" (some "svcA") "a" "k" 1 (some "p1")] ++
        Row.mk "t2" "s2" "" (some "svcA") "b" "k" 1 none ::
          [Row.mk "t3" "s3" "" (some "svcA") "c" "k" 1 (some "p3")]))) =
      none := by
  refine ⟨by decide, by decide, ?_⟩
  exact C10_fail_fast true
    [Row.mk "t1" "s1" "" (some "svcA") "a" "k" 1 (some "p1")]
    [Row.mk "t3" "s3" "" (some "svcA") "c" "k" 1 (some "p3")]
    (Row.mk "t2" "s2" "" (some "svcA") "b" "k" 1 none)
    (by decide) (by decide)

end OtelArrow
